import Mathlib

/-!
# Verification of the `volk_32f_log2_32f` kernel family

This file gives a shallow embedding of `src/kernels/volk/volk_32f_log2_32f.h`:
a fast approximate base-2 logarithm over arrays of IEEE-754 binary32 values,
with SSE4.1 / AVX2 / AVX2+FMA / NEON vector variants and scalar tail fallbacks.

Binary32 values are represented by their bit patterns (natural numbers below
`2^32`).  The arithmetic model implements IEEE-754 binary32 semantics exactly:
round-to-nearest-even on exact (dyadic rational) intermediate results, with
subnormals, signed zeros, infinities and a canonical quiet NaN.  All
definitions are executable, so concrete kernel evaluations reduce by `decide`.

The platform's `log2f` primitive is external to the repository; its special
values follow the C99/IEEE specification (`log2(±0) = -inf`, `log2(+inf) =
+inf`, `log2` of a negative argument is NaN) and its value on positive finite
arguments is abstracted as a function parameter `l2` from bit patterns to bit
patterns.
-/

namespace Volk

/-! ## Bit-pattern fields and classification -/

/-- Number of binary digits of `n` (0 for 0), computed with explicit fuel so
that the kernel can evaluate it on literals. -/
def blenA : ℕ → ℕ → ℕ
  | 0, _ => 0
  | f + 1, n => if n = 0 then 0 else blenA f (n / 2) + 1

/-- Number of binary digits of `n`; fuel 2000 covers every value arising from
binary32 arithmetic (exponents span less than 600 positions). -/
def blen (n : ℕ) : ℕ := blenA 2000 n

/-- Sign bit of a binary32 pattern. -/
def sgnB (p : ℕ) : ℕ := p / 2 ^ 31 % 2

/-- Biased exponent field (8 bits) of a binary32 pattern. -/
def expB (p : ℕ) : ℕ := p / 2 ^ 23 % 2 ^ 8

/-- Significand field (23 bits) of a binary32 pattern. -/
def sigB (p : ℕ) : ℕ := p % 2 ^ 23

def isNaNB (p : ℕ) : Bool := expB p = 255 ∧ sigB p ≠ 0

def isInfB (p : ℕ) : Bool := expB p = 255 ∧ sigB p = 0

def isZeroB (p : ℕ) : Bool := expB p = 0 ∧ sigB p = 0

def isFiniteB (p : ℕ) : Bool := expB p ≠ 255

def isNormalB (p : ℕ) : Bool := 1 ≤ expB p ∧ expB p ≤ 254

/-- Integer significand of a finite pattern, with the sign folded in:
the represented value is `mantZ p * 2 ^ expZ p`. -/
def mantZ (p : ℕ) : ℤ :=
  (if sgnB p = 1 then -1 else 1) *
    (if expB p = 0 then (sigB p : ℤ) else 2 ^ 23 + sigB p)

/-- Scale exponent of a finite pattern: the represented value is
`mantZ p * 2 ^ expZ p`. -/
def expZ (p : ℕ) : ℤ := if expB p = 0 then -149 else (expB p : ℤ) - 150

/-- Exact rational value of a finite binary32 pattern. -/
def valQ (p : ℕ) : ℚ := (mantZ p : ℚ) * 2 ^ expZ p

/-! ## Round to nearest, ties to even -/

/-- Round `N / D` (with `D > 0`) to the nearest integer, ties to even. -/
def rdiv (N D : ℕ) : ℕ :=
  let quo := N / D
  let r := N % D
  if D < 2 * r then quo + 1
  else if 2 * r < D then quo
  else if quo % 2 = 0 then quo else quo + 1

/-- Encode the positive value `m * 2 ^ e` (`m > 0`) as a binary32 bit pattern
without sign bit, rounding to nearest even; overflows to the +inf pattern,
underflows through the subnormal range down to `+0`. -/
def encodePos (m : ℕ) (e : ℤ) : ℕ :=
  let e2 : ℤ := (blen m : ℤ) - 1 + e
  let q : ℤ := if e2 < -126 then -149 else e2 - 23
  let n : ℕ := if q ≤ e then m * 2 ^ (e - q).toNat else rdiv m (2 ^ (q - e).toNat)
  let p : ℕ := if e2 < -126 then n else n + (e2 + 126).toNat * 2 ^ 23
  if 0x7f800000 ≤ p then 0x7f800000 else p

/-- Encode the nonzero value `m * 2 ^ e` as a binary32 bit pattern. -/
def encodeZ (m : ℤ) (e : ℤ) : ℕ :=
  if m < 0 then encodePos m.natAbs e + 2 ^ 31 else encodePos m.natAbs e

/-- `2 ^ e ≤ n / d`, for positive naturals `n, d` and an integer `e`. -/
def ratle2 (n d : ℕ) (e : ℤ) : Bool := if 0 ≤ e then d * 2 ^ e.toNat ≤ n else d ≤ n * 2 ^ (-e).toNat

/-- Encode the positive rational `n / d` as a binary32 bit pattern without
sign bit (round to nearest even).  Used for the decimal literals of the
source, which the C compiler rounds to `float`. -/
def encodeRatPos (n d : ℕ) : ℕ :=
  let e0 : ℤ := (blen n : ℤ) - blen d
  let e2 : ℤ := if ratle2 n d e0 then e0 else e0 - 1
  let q : ℤ := if e2 < -126 then -149 else e2 - 23
  let N : ℕ := if q ≤ 0 then n * 2 ^ (-q).toNat else n
  let D : ℕ := if q ≤ 0 then d else d * 2 ^ q.toNat
  let nn := rdiv N D
  let p := if e2 < -126 then nn else nn + (e2 + 126).toNat * 2 ^ 23
  if 0x7f800000 ≤ p then 0x7f800000 else p

/-- A binary32 pattern from a decimal literal `±(n / d)` of the source. -/
def f32OfDecimal (neg : Bool) (n d : ℕ) : ℕ :=
  (if neg then 2 ^ 31 else 0) + encodeRatPos n d

/-- Round the positive rational `n / d` (in the normal range of binary64) to
53 bits of precision, returning the value as a dyadic pair `(m, e)` with value
`m * 2 ^ e`.  Models the C compiler rounding a decimal literal to `double`. -/
def rnd53 (n d : ℕ) : ℕ × ℤ :=
  let e0 : ℤ := (blen n : ℤ) - blen d
  let e2 : ℤ := if ratle2 n d e0 then e0 else e0 - 1
  let q : ℤ := e2 - 52
  let N : ℕ := if q ≤ 0 then n * 2 ^ (-q).toNat else n
  let D : ℕ := if q ≤ 0 then d else d * 2 ^ q.toNat
  (rdiv N D, q)

/-- A binary32 pattern from a decimal literal `±(n / d)` that the source
passes through `double` first (the NEON coefficients are written as `double`
literals narrowed by `vdupq_n_f32`). -/
def f32OfDouble (neg : Bool) (n d : ℕ) : ℕ :=
  (if neg then 2 ^ 31 else 0) + encodePos (rnd53 n d).1 (rnd53 n d).2

/-! ## Binary32 arithmetic (round to nearest even) -/

/-- Canonical quiet-NaN pattern produced by the model. -/
def qNaNB : ℕ := 0x7fc00000

/-- IEEE-754 binary32 addition on bit patterns. -/
def fadd (x y : ℕ) : ℕ :=
  if isNaNB x ∨ isNaNB y then qNaNB
  else if isInfB x ∧ isInfB y then (if sgnB x = sgnB y then x else qNaNB)
  else if isInfB x then x
  else if isInfB y then y
  else
    let e : ℤ := min (expZ x) (expZ y)
    let M : ℤ := mantZ x * 2 ^ (expZ x - e).toNat + mantZ y * 2 ^ (expZ y - e).toNat
    if M = 0 then (if sgnB x = 1 ∧ sgnB y = 1 then 2 ^ 31 else 0) else encodeZ M e

/-- Binary32 negation: flip the sign bit. -/
def fneg (x : ℕ) : ℕ := if x < 2 ^ 31 then x + 2 ^ 31 else x - 2 ^ 31

/-- IEEE-754 binary32 subtraction (addition of the negation). -/
def fsub (x y : ℕ) : ℕ := fadd x (fneg y)

/-- IEEE-754 binary32 multiplication on bit patterns. -/
def fmul (x y : ℕ) : ℕ :=
  let sb : ℕ := if sgnB x = sgnB y then 0 else 1
  if isNaNB x ∨ isNaNB y then qNaNB
  else if (isInfB x ∧ isZeroB y) ∨ (isZeroB x ∧ isInfB y) then qNaNB
  else if isInfB x ∨ isInfB y then sb * 2 ^ 31 + 0x7f800000
  else
    let M : ℤ := mantZ x * mantZ y
    if M = 0 then sb * 2 ^ 31 else encodeZ M (expZ x + expZ y)

/-- IEEE-754 fused multiply-add `x * y + z` on bit patterns: a single
rounding of the exact product-sum. -/
def ffma (x y z : ℕ) : ℕ :=
  let sp : ℕ := if sgnB x = sgnB y then 0 else 1
  if isNaNB x ∨ isNaNB y ∨ isNaNB z then qNaNB
  else if (isInfB x ∧ isZeroB y) ∨ (isZeroB x ∧ isInfB y) then qNaNB
  else if isInfB x ∨ isInfB y then
    (if isInfB z ∧ sgnB z ≠ sp then qNaNB else sp * 2 ^ 31 + 0x7f800000)
  else if isInfB z then z
  else
    let ep : ℤ := expZ x + expZ y
    let e : ℤ := min ep (expZ z)
    let M : ℤ := mantZ x * mantZ y * 2 ^ (ep - e).toNat + mantZ z * 2 ^ (expZ z - e).toNat
    if M = 0 then
      (if mantZ x * mantZ y = 0 ∧ mantZ z = 0 then (if sp = sgnB z then sp * 2 ^ 31 else 0) else 0)
    else encodeZ M e

/-- `_mm_cvtepi32_ps` / `_mm256_cvtepi32_ps`: signed 32-bit integer to
binary32, round to nearest even. -/
def cvtepi32 (i : ℤ) : ℕ := if i = 0 then 0 else encodeZ i 0

/-- `copysignf`: magnitude of the first pattern with the sign of the second. -/
def copysignf (mag s : ℕ) : ℕ := mag % 2 ^ 31 + sgnB s * 2 ^ 31

/-! ## Literal constants of the source -/

/-!
Each constant below is the binary32 bit pattern of a literal of the source,
given directly as a literal for cheap kernel reduction; the theorem following
each definition verifies that the pattern is the round-to-nearest binary32
encoding of the source's decimal literal (via `f32OfDecimal`/`f32OfDouble`,
which model the C compiler's literal conversion).
-/

/-- `1.0f` (`leadingOne` in the source). -/
def leadingOne : ℕ := 0x3f800000

theorem leadingOne_spec : leadingOne = f32OfDecimal false 1 1 := by decide

/-- `127.0f`. -/
def c127f : ℕ := 0x42fe0000

theorem c127f_spec : c127f = f32OfDecimal false 127 1 := by decide

/-- `-127.0f`. -/
def n127f : ℕ := 0xc2fe0000

theorem n127f_spec : n127f = f32OfDecimal true 127 1 := by decide

/-- `3.1157899f` (degree-6 coefficient `c0` of the x86 kernels). -/
def c0f : ℕ := 0x4047691a

theorem c0f_spec : c0f = f32OfDecimal false 31157899 10000000 := by decide

/-- `-3.3241990f`. -/
def c1f : ℕ := 0xc054bfad

theorem c1f_spec : c1f = f32OfDecimal true 33241990 10000000 := by decide

/-- `2.5988452f`. -/
def c2f : ℕ := 0x4026537b

theorem c2f_spec : c2f = f32OfDecimal false 25988452 10000000 := by decide

/-- `-1.2315303f`. -/
def c3f : ℕ := 0xbf9da2c9

theorem c3f_spec : c3f = f32OfDecimal true 12315303 10000000 := by decide

/-- `3.1821337e-1f`. -/
def c4f : ℕ := 0x3ea2ecdd

theorem c4f_spec : c4f = f32OfDecimal false 31821337 100000000 := by decide

/-- `-3.4436006e-2f`. -/
def c5f : ℕ := 0xbd0d0cc5

theorem c5f_spec : c5f = f32OfDecimal true 34436006 1000000000 := by decide

/-- NEON minimax coefficient `p0 = -3.0400402727048585` (double literal
narrowed to float by `vdupq_n_f32`). -/
def p0n : ℕ := 0xc0429005

theorem p0n_spec : p0n = f32OfDouble true 30400402727048585 10000000000000000 := by decide

/-- NEON coefficient `p1 = 6.1129631282966113`. -/
def p1n : ℕ := 0x40c39d65

theorem p1n_spec : p1n = f32OfDouble false 61129631282966113 10000000000000000 := by decide

/-- NEON coefficient `p2 = -5.3419892024633207`. -/
def p2n : ℕ := 0xc0aaf193

theorem p2n_spec : p2n = f32OfDouble true 53419892024633207 10000000000000000 := by decide

/-- NEON coefficient `p3 = 3.2865287703753912`. -/
def p3n : ℕ := 0x4052567d

theorem p3n_spec : p3n = f32OfDouble false 32865287703753912 10000000000000000 := by decide

/-- NEON coefficient `p4 = -1.2669182593441635`. -/
def p4n : ℕ := 0xbfa22a61

theorem p4n_spec : p4n = f32OfDouble true 12669182593441635 10000000000000000 := by decide

/-- NEON coefficient `p5 = 0.2751487703421256`. -/
def p5n : ℕ := 0x3e8ce04d

theorem p5n_spec : p5n = f32OfDouble false 2751487703421256 10000000000000000 := by decide

/-- NEON coefficient `p6 = -0.0256910888150985`. -/
def p6n : ℕ := 0xbcd2761e

theorem p6n_spec : p6n = f32OfDouble true 256910888150985 10000000000000000 := by decide

/-! ## Polynomial macros (`POLY0` .. `POLY5`, lines 302-310 / 214-224) -/

def POLY0 (_x c0 : ℕ) : ℕ := c0

def POLY1 (x c0 c1 : ℕ) : ℕ := fadd (fmul (POLY0 x c1) x) c0

def POLY2 (x c0 c1 c2 : ℕ) : ℕ := fadd (fmul (POLY1 x c1 c2) x) c0

def POLY3 (x c0 c1 c2 c3 : ℕ) : ℕ := fadd (fmul (POLY2 x c1 c2 c3) x) c0

def POLY4 (x c0 c1 c2 c3 c4 : ℕ) : ℕ := fadd (fmul (POLY3 x c1 c2 c3 c4) x) c0

def POLY5 (x c0 c1 c2 c3 c4 c5 : ℕ) : ℕ := fadd (fmul (POLY4 x c1 c2 c3 c4 c5) x) c0

/-! ## FMA polynomial macros (`POLY0_FMAAVX2` .. `POLY5_FMAAVX2`, lines 126-136) -/

def POLY0F (_x c0 : ℕ) : ℕ := c0

def POLY1F (x c0 c1 : ℕ) : ℕ := ffma (POLY0F x c1) x c0

def POLY2F (x c0 c1 c2 : ℕ) : ℕ := ffma (POLY1F x c1 c2) x c0

def POLY3F (x c0 c1 c2 c3 : ℕ) : ℕ := ffma (POLY2F x c1 c2 c3) x c0

def POLY4F (x c0 c1 c2 c3 c4 : ℕ) : ℕ := ffma (POLY3F x c1 c2 c3 c4) x c0

def POLY5F (x c0 c1 c2 c3 c4 c5 : ℕ) : ℕ := ffma (POLY4F x c1 c2 c3 c4 c5) x c0

/-! ## Vector lane bodies -/

/-- One lane of the SSE4.1 loop body (`volk_32f_log2_32f_a_sse4_1` /
`volk_32f_log2_32f_u_sse4_1`, lines 324-370 and 525-571): extract the biased
exponent by mask/shift, subtract the bias 127 as a 32-bit integer, convert to
float; build `frac` by OR-ing the masked significand with `1.0f`; evaluate the
degree-6 polynomial by `POLY5`; result `bVal + mantissa * (frac - leadingOne)`. -/
def sse4_1_lane (aVal : ℕ) : ℕ :=
  let exp : ℤ := ((Nat.land aVal 0x7f800000 >>> 23 : ℕ) : ℤ) - 127
  let bVal := cvtepi32 exp
  let frac := Nat.lor leadingOne (Nat.land aVal 0x7fffff)
  let mantissa := POLY5 frac c0f c1f c2f c3f c4f c5f
  fadd bVal (fmul mantissa (fsub frac leadingOne))

/-- One lane of the non-FMA AVX2 loop body (`volk_32f_log2_32f_a_avx2` /
`volk_32f_log2_32f_u_avx2`, lines 238-287 and 698-747).  Identical arithmetic
to the SSE4.1 lane except that the final sum is written
`mantissa * (frac - leadingOne) + bVal`. -/
def avx2_lane (aVal : ℕ) : ℕ :=
  let exp : ℤ := ((Nat.land aVal 0x7f800000 >>> 23 : ℕ) : ℤ) - 127
  let bVal := cvtepi32 exp
  let frac := Nat.lor leadingOne (Nat.land aVal 0x7fffff)
  let mantissa := POLY5 frac c0f c1f c2f c3f c4f c5f
  fadd (fmul mantissa (fsub frac leadingOne)) bVal

/-- One lane of the AVX2+FMA loop body (`volk_32f_log2_32f_a_avx2_fma` /
`volk_32f_log2_32f_u_avx2_fma`, lines 151-203 and 611-663): Horner steps and
the final combination use fused multiply-add. -/
def avx2_fma_lane (aVal : ℕ) : ℕ :=
  let exp : ℤ := ((Nat.land aVal 0x7f800000 >>> 23 : ℕ) : ℤ) - 127
  let bVal := cvtepi32 exp
  let frac := Nat.lor leadingOne (Nat.land aVal 0x7fffff)
  let mantissa := POLY5F frac c0f c1f c2f c3f c4f c5f
  ffma mantissa (fsub frac leadingOne) bVal

/-- One lane of the NEON loop body (`VLOG2Q_NEON_F32`, lines 401-435):
fixed-point significand conversion `vcvtq_n_f32_s32(significand_i, 23)`, then
the alternate degree-6 polynomial evaluated by explicit powers and added to
the exponent term by term. -/
def vlog2q_neon_f32 (aval : ℕ) : ℕ :=
  let exponent_i : ℕ := Nat.land aval 0x7f800000
  let significand_i : ℕ := Nat.land aval 0x7fffff
  let exponent_s : ℕ := exponent_i >>> 23
  let significand_o : ℕ := Nat.lor 0x800000 significand_i
  let significand_f : ℕ := encodePos significand_o (-23)
  let exponent_d : ℤ := (exponent_s : ℤ) - 127
  let exponent_f : ℕ := cvtepi32 exponent_d
  let la0 := fadd exponent_f p0n
  let la1 := fadd la0 (fmul significand_f p1n)
  let sig_2 := fmul significand_f significand_f
  let la2 := fadd la1 (fmul sig_2 p2n)
  let sig_3 := fmul sig_2 significand_f
  let la3 := fadd la2 (fmul sig_3 p3n)
  let sig_4 := fmul sig_2 sig_2
  let la4 := fadd la3 (fmul sig_4 p4n)
  let sig_5 := fmul sig_3 sig_2
  let la5 := fadd la4 (fmul sig_5 p5n)
  let sig_6 := fmul sig_3 sig_3
  fadd la5 (fmul sig_6 p6n)

/-! ## Scalar kernels -/

/-- Platform math primitive `log2f`.  It is external to this repository: the
special values follow the C99/IEEE semantics of `log2f` (`log2(±0) = -inf`,
`log2(+inf) = +inf`, `log2` of a negative argument — including `-inf` — is
NaN, NaN propagates), and the value on positive finite arguments is abstracted
as the parameter `l2`. -/
def log2fP (l2 : ℕ → ℕ) (f : ℕ) : ℕ :=
  if isNaNB f then qNaNB
  else if isZeroB f then 0xff800000
  else if f = 0x7f800000 then 0x7f800000
  else if sgnB f = 1 then qNaNB
  else l2 f

/-- `log2f_non_ieee` (lines 103-107): `log2f`, with an infinite result
replaced by `copysignf(127.0f, result)`. -/
def log2f_non_ieee (l2 : ℕ → ℕ) (f : ℕ) : ℕ :=
  let result := log2fP l2 f
  if isInfB result then copysignf c127f result else result

/-- `volk_32f_log2_32f_generic` (lines 111-120): elementwise
`log2f_non_ieee`. -/
def volk_32f_log2_32f_generic (l2 : ℕ → ℕ) (aVector : List ℕ) : List ℕ :=
  aVector.map (log2f_non_ieee l2)

/-- One element of `volk_32f_log2_32f_u_generic` (lines 491-493):
`log2f`, with an infinite result replaced by `-127.0f` regardless of sign. -/
def u_generic_elem (l2 : ℕ → ℕ) (a : ℕ) : ℕ :=
  let result := log2fP l2 a
  if isInfB result then n127f else result

/-- `volk_32f_log2_32f_u_generic` (lines 484-495). -/
def volk_32f_log2_32f_u_generic (l2 : ℕ → ℕ) (aVector : List ℕ) : List ℕ :=
  aVector.map (u_generic_elem l2)

/-! ## Vector sweep with scalar tail -/

/-- The vector sweep: process `q` groups of `W` elements with `lane`, then
hand the remaining elements to the scalar kernel `tailK`.  Mirrors the
`for (; number < quarterPoints; number++) { ... }` loop followed by the
`volk_32f_log2_32f_*generic(bPtr, aPtr, num_points - number)` call. -/
def vecSweep (W : ℕ) (lane : ℕ → ℕ) (tailK : List ℕ → List ℕ) : ℕ → List ℕ → List ℕ
  | 0, xs => tailK xs
  | q + 1, xs => (xs.take W).map lane ++ vecSweep W lane tailK q (xs.drop W)

/-- `volk_32f_log2_32f_a_sse4_1` (lines 312-378): `num_points / 4` groups of
4 through the SSE4.1 lane, tail through `volk_32f_log2_32f_generic`. -/
def volk_32f_log2_32f_a_sse4_1 (l2 : ℕ → ℕ) (aVector : List ℕ) : List ℕ :=
  vecSweep 4 sse4_1_lane (volk_32f_log2_32f_generic l2) (aVector.length / 4) aVector

/-- `volk_32f_log2_32f_u_sse4_1` (lines 513-579): same loop body as the
aligned version, tail through `volk_32f_log2_32f_u_generic`. -/
def volk_32f_log2_32f_u_sse4_1 (l2 : ℕ → ℕ) (aVector : List ℕ) : List ℕ :=
  vecSweep 4 sse4_1_lane (volk_32f_log2_32f_u_generic l2) (aVector.length / 4) aVector

/-- `volk_32f_log2_32f_a_avx2` (lines 226-295). -/
def volk_32f_log2_32f_a_avx2 (l2 : ℕ → ℕ) (aVector : List ℕ) : List ℕ :=
  vecSweep 8 avx2_lane (volk_32f_log2_32f_generic l2) (aVector.length / 8) aVector

/-- `volk_32f_log2_32f_u_avx2` (lines 686-755). -/
def volk_32f_log2_32f_u_avx2 (l2 : ℕ → ℕ) (aVector : List ℕ) : List ℕ :=
  vecSweep 8 avx2_lane (volk_32f_log2_32f_u_generic l2) (aVector.length / 8) aVector

/-- `volk_32f_log2_32f_a_avx2_fma` (lines 138-207). -/
def volk_32f_log2_32f_a_avx2_fma (l2 : ℕ → ℕ) (aVector : List ℕ) : List ℕ :=
  vecSweep 8 avx2_fma_lane (volk_32f_log2_32f_generic l2) (aVector.length / 8) aVector

/-- `volk_32f_log2_32f_u_avx2_fma` (lines 598-667). -/
def volk_32f_log2_32f_u_avx2_fma (l2 : ℕ → ℕ) (aVector : List ℕ) : List ℕ :=
  vecSweep 8 avx2_fma_lane (volk_32f_log2_32f_u_generic l2) (aVector.length / 8) aVector

/-- `volk_32f_log2_32f_neon` (lines 437-471): `num_points / 4` groups of 4
through the NEON lane, tail through `volk_32f_log2_32f_generic`. -/
def volk_32f_log2_32f_neon (l2 : ℕ → ℕ) (aVector : List ℕ) : List ℕ :=
  vecSweep 4 vlog2q_neon_f32 (volk_32f_log2_32f_generic l2) (aVector.length / 4) aVector

/-! ## Basic facts about the rounding machinery -/

/-! ## Basic facts about the rounding machinery -/

theorem blenA_spec : ∀ f n, n < 2 ^ f → 0 < n →
    2 ^ (blenA f n - 1) ≤ n ∧ n < 2 ^ blenA f n := by
  intro f
  induction f with
  | zero => intro n hn h1; omega
  | succ f ih =>
    intro n hn h1
    have hne : n ≠ 0 := by omega
    have hrw : blenA (f + 1) n = blenA f (n / 2) + 1 := by
      rw [blenA]
      simp [hne]
    rw [hrw]
    rcases Nat.lt_or_ge n 2 with h2 | h2
    · have hn1 : n = 1 := by omega
      subst hn1
      have h0 : blenA f (1 / 2) = 0 := by
        norm_num
        cases f <;> rfl
      rw [h0]
      norm_num
    · have hhalf : 0 < n / 2 := Nat.div_pos h2 (by norm_num)
      have hpow : 2 ^ (f + 1) = 2 * 2 ^ f := by ring
      have hlt : n / 2 < 2 ^ f := by omega
      obtain ⟨hl, hr⟩ := ih (n / 2) hlt hhalf
      have hb1 : 1 ≤ blenA f (n / 2) := by
        rcases Nat.eq_zero_or_pos (blenA f (n / 2)) with h | h
        · rw [h] at hr
          norm_num at hr
          omega
        · omega
      constructor
      · have heq : blenA f (n / 2) + 1 - 1 = blenA f (n / 2) - 1 + 1 := by omega
        rw [heq, pow_succ]
        omega
      · rw [pow_succ]
        omega

theorem blen_spec {n : ℕ} (h1 : 0 < n) (h2 : n < 2 ^ 2000) :
    2 ^ (blen n - 1) ≤ n ∧ n < 2 ^ blen n :=
  blenA_spec 2000 n h2 h1

/-- A number determines its binary length: matching two-power brackets agree. -/
theorem blen_unique {n a b : ℕ} (ha1 : 2 ^ (a - 1) ≤ n) (ha2 : n < 2 ^ a)
    (hb1 : 2 ^ (b - 1) ≤ n) (hb2 : n < 2 ^ b) (hpa : 0 < a) (hpb : 0 < b) : a = b := by
  by_contra hne
  rcases Nat.lt_or_ge a b with h | h
  · have h3 : 2 ^ (b - 1) < 2 ^ a := lt_of_le_of_lt hb1 ha2
    have h4 := (Nat.pow_lt_pow_iff_right (by norm_num : 1 < 2)).mp h3
    omega
  · have hab : b < a := by omega
    have h3 : 2 ^ (a - 1) < 2 ^ b := lt_of_le_of_lt ha1 hb2
    have h4 := (Nat.pow_lt_pow_iff_right (by norm_num : 1 < 2)).mp h3
    omega

theorem blen_of_bounds {n b : ℕ} (hb : 0 < b) (h1 : 2 ^ (b - 1) ≤ n) (h2 : n < 2 ^ b)
    (hbig : n < 2 ^ 2000) : blen n = b := by
  have hpos : 0 < n := lt_of_lt_of_le (Nat.two_pow_pos (b - 1)) h1
  obtain ⟨hl, hr⟩ := blen_spec hpos hbig
  have hbl : 0 < blen n := by
    by_contra hz
    have h0 : blen n = 0 := by omega
    rw [h0] at hr
    norm_num at hr
    omega
  exact blen_unique hl hr h1 h2 hbl hb

theorem rdiv_exact (a D : ℕ) (hD : 0 < D) : rdiv (a * D) D = a := by
  have hq : a * D / D = a := Nat.mul_div_cancel a hD
  have hr : a * D % D = 0 := Nat.mul_mod_left a D
  simp only [rdiv, hq, hr]
  rw [if_neg (by omega : ¬(D < 2 * 0)), if_pos (by omega : 2 * 0 < D)]

/-- Every finite pattern scales with exponent at least `-149`. -/
theorem expZ_ge (p : ℕ) : -149 ≤ expZ p := by
  unfold expZ
  split <;> omega

/-- The integer significand is zero exactly on the two zero patterns. -/
theorem mantZ_eq_zero_iff (p : ℕ) : mantZ p = 0 ↔ (expB p = 0 ∧ sigB p = 0) := by
  unfold mantZ
  by_cases hs : sgnB p = 1 <;> by_cases he : expB p = 0 <;> simp [hs, he] <;> omega

/-! ## Round-trip: re-encoding a finite pattern's value yields the pattern -/

theorem encodePos_normal (F E t : ℕ) (hF : F < 2 ^ 23) (hE1 : 1 ≤ E) (hE2 : E ≤ 254)
    (ht : t ≤ 1500) :
    encodePos ((2 ^ 23 + F) * 2 ^ t) ((E : ℤ) - 150 - t) = E * 2 ^ 23 + F := by
  have hlt24 : (2 ^ 23 + F) * 2 ^ t < 2 ^ 24 * 2 ^ t :=
    (Nat.mul_lt_mul_right (Nat.two_pow_pos t)).mpr (by omega)
  have hblen : blen ((2 ^ 23 + F) * 2 ^ t) = 24 + t := by
    apply blen_of_bounds (by omega)
    · calc 2 ^ (24 + t - 1) = 2 ^ 23 * 2 ^ t := by
            rw [← pow_add]
            congr 1
            omega
      _ ≤ (2 ^ 23 + F) * 2 ^ t := Nat.mul_le_mul_right _ (by omega)
    · calc (2 ^ 23 + F) * 2 ^ t < 2 ^ 24 * 2 ^ t := hlt24
      _ = 2 ^ (24 + t) := by rw [← pow_add]
    · have hb2 : (2 ^ 23 + F) * 2 ^ t < 2 ^ (24 + t) := by
        rw [pow_add]
        exact hlt24
      exact lt_of_lt_of_le hb2 (Nat.pow_le_pow_right (by norm_num) (by omega))
  simp only [encodePos]
  rw [hblen]
  have he2 : ((24 + t : ℕ) : ℤ) - 1 + ((E : ℤ) - 150 - t) = (E : ℤ) - 127 := by
    push_cast
    ring
  rw [he2]
  have hc1 : ¬((E : ℤ) - 127 < -126) := by omega
  have hnn : ((E : ℤ) - 127 + 126).toNat = E - 1 := by omega
  have hov : ¬(0x7f800000 ≤ 2 ^ 23 + F + (E - 1) * 2 ^ 23) := by
    have h2 : (E - 1) * 2 ^ 23 ≤ 253 * 2 ^ 23 := Nat.mul_le_mul_right _ (by omega)
    omega
  rcases Nat.eq_zero_or_pos t with ht0 | htpos
  · subst ht0
    have hc2 : (E : ℤ) - 127 - 23 ≤ (E : ℤ) - 150 - ((0 : ℕ) : ℤ) := by
      push_cast
      omega
    have hz : ((E : ℤ) - 150 - ((0 : ℕ) : ℤ) - ((E : ℤ) - 127 - 23)).toNat = 0 := by
      push_cast
      omega
    simp only [if_neg hc1, if_pos hc2, hz, hnn, pow_zero, mul_one]
    rw [if_neg hov]
    omega
  · have hc2 : ¬((E : ℤ) - 127 - 23 ≤ (E : ℤ) - 150 - (t : ℤ)) := by omega
    have hts : ((E : ℤ) - 127 - 23 - ((E : ℤ) - 150 - (t : ℤ))).toNat = t := by omega
    simp only [if_neg hc1, if_neg hc2, hts, hnn]
    rw [rdiv_exact _ _ (Nat.two_pow_pos t)]
    rw [if_neg hov]
    omega

theorem encodePos_subnormal (F t : ℕ) (hF1 : 1 ≤ F) (hF : F < 2 ^ 23) (ht : t ≤ 1500) :
    encodePos (F * 2 ^ t) (-149 - (t : ℤ)) = F := by
  obtain ⟨hl, hr⟩ := blen_spec (by omega : 0 < F) (by omega : F < 2 ^ 2000)
  have hbpos : 0 < blen F := by
    by_contra hz
    have h0 : blen F = 0 := by omega
    rw [h0] at hr
    norm_num at hr
    omega
  have hble : blen F ≤ 23 := by
    by_contra hgt
    have h23 : 2 ^ 23 ≤ 2 ^ (blen F - 1) := Nat.pow_le_pow_right (by norm_num) (by omega)
    omega
  have hltb : F * 2 ^ t < 2 ^ blen F * 2 ^ t :=
    (Nat.mul_lt_mul_right (Nat.two_pow_pos t)).mpr hr
  have hblen : blen (F * 2 ^ t) = blen F + t := by
    apply blen_of_bounds (by omega)
    · calc 2 ^ (blen F + t - 1) = 2 ^ (blen F - 1) * 2 ^ t := by
            rw [← pow_add]
            congr 1
            omega
      _ ≤ F * 2 ^ t := Nat.mul_le_mul_right _ hl
    · calc F * 2 ^ t < 2 ^ blen F * 2 ^ t := hltb
      _ = 2 ^ (blen F + t) := by rw [← pow_add]
    · have hb2 : F * 2 ^ t < 2 ^ (blen F + t) := by
        rw [pow_add]
        exact hltb
      exact lt_of_lt_of_le hb2 (Nat.pow_le_pow_right (by norm_num) (by omega))
  simp only [encodePos]
  rw [hblen]
  have he2 : ((blen F + t : ℕ) : ℤ) - 1 + (-149 - (t : ℤ)) = (blen F : ℤ) - 150 := by
    push_cast
    ring
  rw [he2]
  have hc1 : (blen F : ℤ) - 150 < -126 := by omega
  have hov : ¬(0x7f800000 ≤ F) := by omega
  rcases Nat.eq_zero_or_pos t with ht0 | htpos
  · subst ht0
    have hc2 : (-149 : ℤ) ≤ -149 - ((0 : ℕ) : ℤ) := by norm_num
    have hz : (-149 - ((0 : ℕ) : ℤ) - (-149)).toNat = 0 := by norm_num
    simp only [if_pos hc1, if_pos hc2, hz, pow_zero, mul_one]
    rw [if_neg hov]
  · have hc2 : ¬((-149 : ℤ) ≤ -149 - (t : ℤ)) := by omega
    have hts : ((-149 : ℤ) - (-149 - (t : ℤ))).toNat = t := by omega
    simp only [if_pos hc1, if_neg hc2, hts]
    rw [rdiv_exact _ _ (Nat.two_pow_pos t)]
    rw [if_neg hov]

/-- Encoding the exact value of a nonzero finite binary32 pattern (scaled by
any power of two below the fuel bound) reproduces the pattern. -/
theorem encodeZ_roundtrip (x t : ℕ) (hx : x < 2 ^ 32) (hfin : expB x ≠ 255)
    (hnz : mantZ x ≠ 0) (ht : t ≤ 1500) :
    encodeZ (mantZ x * 2 ^ t) (expZ x - t) = x := by
  have hsig : sigB x < 2 ^ 23 := Nat.mod_lt _ (by norm_num)
  have hexp : expB x < 2 ^ 8 := Nat.mod_lt _ (by norm_num)
  have hsgn2 : sgnB x < 2 := Nat.mod_lt _ (by norm_num)
  have hdecomp : x = sgnB x * 2 ^ 31 + expB x * 2 ^ 23 + sigB x := by
    unfold sgnB expB sigB
    omega
  have hnz' : ¬(expB x = 0 ∧ sigB x = 0) := fun h => hnz ((mantZ_eq_zero_iff x).mpr h)
  by_cases hE : expB x = 0
  · -- subnormal
    have hsigpos : 0 < sigB x := by
      rcases Nat.eq_zero_or_pos (sigB x) with h | h
      · exact absurd ⟨hE, h⟩ hnz'
      · exact h
    have hexpZ : expZ x - (t : ℤ) = -149 - (t : ℤ) := by
      unfold expZ
      rw [if_pos hE]
    rw [hexpZ]
    by_cases hs : sgnB x = 1
    · have hmant : mantZ x * 2 ^ t = -((sigB x * 2 ^ t : ℕ) : ℤ) := by
        unfold mantZ
        rw [if_pos hs, if_pos hE]
        push_cast
        ring
      unfold encodeZ
      rw [hmant]
      rw [if_pos (by
        have hp : 0 < sigB x * 2 ^ t := Nat.mul_pos hsigpos (Nat.two_pow_pos t)
        omega : -((sigB x * 2 ^ t : ℕ) : ℤ) < 0)]
      rw [Int.natAbs_neg, Int.natAbs_ofNat]
      have hmul : (sigB x : ℕ) * 2 ^ t = sigB x * 2 ^ t := rfl
      rw [encodePos_subnormal (sigB x) t hsigpos hsig ht]
      omega
    · have hs0 : sgnB x = 0 := by omega
      have hmant : mantZ x * 2 ^ t = ((sigB x * 2 ^ t : ℕ) : ℤ) := by
        unfold mantZ
        rw [if_neg hs, if_pos hE]
        push_cast
        ring
      unfold encodeZ
      rw [hmant]
      rw [if_neg (by omega : ¬(((sigB x * 2 ^ t : ℕ) : ℤ) < 0))]
      rw [Int.natAbs_ofNat]
      rw [encodePos_subnormal (sigB x) t hsigpos hsig ht]
      omega
  · -- normal
    have hE1 : 1 ≤ expB x := by omega
    have hE2 : expB x ≤ 254 := by omega
    have hexpZ : expZ x - (t : ℤ) = (expB x : ℤ) - 150 - (t : ℤ) := by
      unfold expZ
      rw [if_neg hE]
    rw [hexpZ]
    by_cases hs : sgnB x = 1
    · have hmant : mantZ x * 2 ^ t = -(((2 ^ 23 + sigB x) * 2 ^ t : ℕ) : ℤ) := by
        unfold mantZ
        rw [if_pos hs, if_neg hE]
        push_cast
        ring
      unfold encodeZ
      rw [hmant]
      rw [if_pos (by
        have hp : 0 < (2 ^ 23 + sigB x) * 2 ^ t := Nat.mul_pos (by omega) (Nat.two_pow_pos t)
        omega : -(((2 ^ 23 + sigB x) * 2 ^ t : ℕ) : ℤ) < 0)]
      rw [Int.natAbs_neg, Int.natAbs_ofNat]
      rw [encodePos_normal (sigB x) (expB x) t hsig hE1 hE2 ht]
      omega
    · have hs0 : sgnB x = 0 := by omega
      have hmant : mantZ x * 2 ^ t = (((2 ^ 23 + sigB x) * 2 ^ t : ℕ) : ℤ) := by
        unfold mantZ
        rw [if_neg hs, if_neg hE]
        push_cast
        ring
      unfold encodeZ
      rw [hmant]
      rw [if_neg (by omega : ¬((((2 ^ 23 + sigB x) * 2 ^ t : ℕ) : ℤ) < 0))]
      rw [Int.natAbs_ofNat]
      rw [encodePos_normal (sigB x) (expB x) t hsig hE1 hE2 ht]
      omega

/-! ## Classification helpers -/

theorem isNaNB_eq_false {p : ℕ} (h : expB p ≠ 255) : isNaNB p = false := by
  simp [isNaNB, h]

theorem isInfB_eq_false {p : ℕ} (h : expB p ≠ 255) : isInfB p = false := by
  simp [isInfB, h]

theorem isZeroB_eq_false {p : ℕ} (h : ¬(expB p = 0 ∧ sigB p = 0)) : isZeroB p = false := by
  simp only [isZeroB]
  simpa using h

theorem expZ_le (p : ℕ) : expZ p ≤ 105 := by
  have h : expB p < 2 ^ 8 := Nat.mod_lt _ (by norm_num)
  unfold expZ
  split
  · omega
  · omega

theorem expZ_zero : expZ 0 = -149 := rfl

theorem mantZ_zero : mantZ 0 = 0 := rfl

/-! ## Canonicality of integer conversion -/

theorem encodePos_small (m : ℕ) (h1 : 1 ≤ m) (h2 : m < 2 ^ 24) :
    2 ^ 23 ≤ encodePos m 0 ∧ encodePos m 0 < 0x7f800000 ∧
      encodePos m 0 = m * 2 ^ (24 - blen m) + (blen m + 125) * 2 ^ 23 := by
  obtain ⟨hl, hr⟩ := blen_spec (by omega : 0 < m) (by
    calc m < 2 ^ 24 := h2
    _ ≤ 2 ^ 2000 := Nat.pow_le_pow_right (by norm_num) (by norm_num))
  have hbpos : 0 < blen m := by
    by_contra hz
    have h0 : blen m = 0 := by omega
    rw [h0] at hr
    norm_num at hr
    omega
  have hble : blen m ≤ 24 := by
    by_contra hgt
    have h24 : 2 ^ 24 ≤ 2 ^ (blen m - 1) := Nat.pow_le_pow_right (by norm_num) (by omega)
    omega
  simp only [encodePos]
  have hc1 : ¬((blen m : ℤ) - 1 + 0 < -126) := by omega
  have hc2 : (blen m : ℤ) - 1 + 0 - 23 ≤ (0 : ℤ) := by omega
  have hts : ((0 : ℤ) - ((blen m : ℤ) - 1 + 0 - 23)).toNat = 24 - blen m := by omega
  have hnn : ((blen m : ℤ) - 1 + 0 + 126).toNat = blen m + 125 := by omega
  simp only [if_neg hc1, if_pos hc2, hts, hnn]
  have hlow : 2 ^ 23 ≤ m * 2 ^ (24 - blen m) := by
    calc 2 ^ 23 = 2 ^ (blen m - 1) * 2 ^ (24 - blen m) := by
          rw [← pow_add]
          congr 1
          omega
    _ ≤ m * 2 ^ (24 - blen m) := Nat.mul_le_mul_right _ hl
  have hhigh : m * 2 ^ (24 - blen m) < 2 ^ 24 := by
    calc m * 2 ^ (24 - blen m) < 2 ^ blen m * 2 ^ (24 - blen m) :=
          (Nat.mul_lt_mul_right (Nat.two_pow_pos _)).mpr hr
    _ = 2 ^ 24 := by
          rw [← pow_add]
          congr 1
          omega
  have hple : (blen m + 125) * 2 ^ 23 ≤ 149 * 2 ^ 23 := Nat.mul_le_mul_right _ (by omega)
  have hov : ¬(0x7f800000 ≤ m * 2 ^ (24 - blen m) + (blen m + 125) * 2 ^ 23) := by omega
  rw [if_neg hov]
  exact ⟨by omega, by omega, rfl⟩

theorem cvtepi32_notSpecial (i : ℤ) (h2 : i.natAbs < 2 ^ 24) :
    cvtepi32 i < 2 ^ 32 ∧ expB (cvtepi32 i) ≠ 255 ∧ (i ≠ 0 → expB (cvtepi32 i) ≠ 0) := by
  by_cases h0 : i = 0
  · subst h0
    refine ⟨by norm_num [cvtepi32], by norm_num [cvtepi32, expB], by tauto⟩
  · have habs1 : 1 ≤ i.natAbs := by
      rcases Nat.eq_zero_or_pos i.natAbs with h | h
      · exact absurd (Int.natAbs_eq_zero.mp h) h0
      · exact h
    obtain ⟨hlo, hhi, -⟩ := encodePos_small i.natAbs habs1 h2
    have hfields : ∀ P, 2 ^ 23 ≤ P → P < 0x7f800000 →
        (P < 2 ^ 32 ∧ expB P ≠ 255 ∧ expB P ≠ 0) ∧
        (P + 2 ^ 31 < 2 ^ 32 ∧ expB (P + 2 ^ 31) ≠ 255 ∧ expB (P + 2 ^ 31) ≠ 0) := by
      intro P hP1 hP2
      unfold expB
      constructor
      · refine ⟨by omega, by omega, by omega⟩
      · refine ⟨by omega, by omega, by omega⟩
    obtain ⟨hpos, hneg⟩ := hfields (encodePos i.natAbs 0) hlo hhi
    unfold cvtepi32 encodeZ
    rw [if_neg h0]
    by_cases hsgn : i < 0
    · rw [if_pos hsgn]
      exact ⟨hneg.1, hneg.2.1, fun _ => hneg.2.2⟩
    · rw [if_neg hsgn]
      exact ⟨hpos.1, hpos.2.1, fun _ => hpos.2.2⟩

/-! ## Adding a positive zero is the identity -/

theorem fadd_pzero (x : ℕ) (hlt : x < 2 ^ 32) (hexp : expB x ≠ 255)
    (hnz : ¬(expB x = 0 ∧ sigB x = 0)) : fadd x 0 = x := by
  have hn0 : isNaNB (0 : ℕ) = false := rfl
  have hi0 : isInfB (0 : ℕ) = false := rfl
  have hnx := isNaNB_eq_false hexp
  have hix := isInfB_eq_false hexp
  have hmz : mantZ x ≠ 0 := fun h => hnz ((mantZ_eq_zero_iff x).mp h)
  simp only [fadd, hnx, hn0, hi0, hix, Bool.false_eq_true, or_self, if_false, and_self,
    and_false, false_and]
  have hmin : min (expZ x) (expZ 0) = expZ 0 := min_eq_right (by rw [expZ_zero]; exact expZ_ge x)
  rw [hmin, expZ_zero, mantZ_zero]
  have hz2 : ((-149 : ℤ) - -149).toNat = 0 := by norm_num
  rw [hz2]
  norm_num
  set t : ℕ := (expZ x + 149).toNat with htdef
  rw [if_neg hmz]
  have he : (-149 : ℤ) = expZ x - t := by
    rw [htdef]
    have := expZ_ge x
    omega
  rw [he]
  exact encodeZ_roundtrip x t hlt hexp hmz (by
    rw [htdef]
    have h1 := expZ_ge x
    have h2 := expZ_le x
    omega)

theorem fadd_zero_left (y : ℕ) (hlt : y < 2 ^ 32) (hexp : expB y ≠ 255)
    (hnz : ¬(expB y = 0 ∧ sigB y = 0)) : fadd 0 y = y := by
  have hn0 : isNaNB (0 : ℕ) = false := rfl
  have hi0 : isInfB (0 : ℕ) = false := rfl
  have hny := isNaNB_eq_false hexp
  have hiy := isInfB_eq_false hexp
  have hmz : mantZ y ≠ 0 := fun h => hnz ((mantZ_eq_zero_iff y).mp h)
  simp only [fadd, hny, hn0, hi0, hiy, Bool.false_eq_true, or_self, if_false, and_self,
    and_false, false_and]
  have hmin : min (expZ 0) (expZ y) = expZ 0 := min_eq_left (by rw [expZ_zero]; exact expZ_ge y)
  rw [hmin, expZ_zero, mantZ_zero]
  have hz2 : ((-149 : ℤ) - -149).toNat = 0 := by norm_num
  rw [hz2]
  norm_num
  set t : ℕ := (expZ y + 149).toNat with htdef
  rw [if_neg hmz]
  have he : (-149 : ℤ) = expZ y - t := by
    rw [htdef]
    have := expZ_ge y
    omega
  rw [he]
  exact encodeZ_roundtrip y t hlt hexp hmz (by
    rw [htdef]
    have h1 := expZ_ge y
    have h2 := expZ_le y
    omega)

/-- A fused multiply-add whose middle factor is `+0` returns the addend
(when the addend is not `-0` and everything is finite). -/
theorem ffma_zero_mid (x z : ℕ) (hxf : expB x ≠ 255) (hzlt : z < 2 ^ 32)
    (hzf : expB z ≠ 255) (hz : z ≠ 2 ^ 31) : ffma x 0 z = z := by
  have hn0 : isNaNB (0 : ℕ) = false := rfl
  have hi0 : isInfB (0 : ℕ) = false := rfl
  have hnx := isNaNB_eq_false hxf
  have hix := isInfB_eq_false hxf
  have hnz := isNaNB_eq_false hzf
  have hiz := isInfB_eq_false hzf
  simp only [ffma, hnx, hn0, hnz, hix, hi0, hiz, Bool.false_eq_true, or_self, if_false,
    and_false, false_and, false_or, or_false, and_self]
  rw [mantZ_zero, expZ_zero]
  norm_num
  by_cases hzz : expB z = 0 ∧ sigB z = 0
  · -- z is a zero pattern; by hypothesis it is +0, so z = 0
    have hz0 : z = 0 := by
      have h1 : z = sgnB z * 2 ^ 31 + expB z * 2 ^ 23 + sigB z := by
        unfold sgnB expB sigB
        omega
      have h2 : sgnB z < 2 := Nat.mod_lt _ (by norm_num)
      rcases Nat.eq_zero_or_pos (sgnB z) with h | h
      · omega
      · exfalso
        apply hz
        omega
    subst hz0
    rw [mantZ_zero]
    norm_num
    intro h
    by_cases hsx : sgnB x = sgnB 0
    · exact hsx
    · rw [if_neg hsx] at h
      exact absurd h (by decide)
  · have hmz : mantZ z ≠ 0 := fun h => hzz ((mantZ_eq_zero_iff z).mp h)
    rw [if_neg hmz]
    set e : ℤ := min (expZ x + -149) (expZ z) with hedef
    set t : ℕ := (expZ z - e).toNat with htdef
    have hee : e = expZ z - t := by
      rw [htdef, hedef]
      have h1 := min_le_right (expZ x + -149) (expZ z)
      omega
    rw [hee]
    exact encodeZ_roundtrip z t hzlt hzf hmz (by
      have h1 := expZ_ge x
      have h2 := expZ_le x
      have h3 := expZ_ge z
      have h4 := expZ_le z
      omega)

/-- Addition commutes whenever the right operand is neither NaN nor
infinite. -/
theorem fadd_comm_right (x y : ℕ) (hyn : isNaNB y = false) (hyi : isInfB y = false) :
    fadd x y = fadd y x := by
  by_cases hxn : isNaNB x = true
  · simp only [fadd, hxn, hyn, Bool.false_eq_true, or_self, if_false, true_or, or_true, if_true]
  · have hxn' : isNaNB x = false := by
      cases h : isNaNB x
      · rfl
      · exact absurd h hxn
    by_cases hxi : isInfB x = true
    · simp only [fadd, hxn', hyn, hxi, hyi, Bool.false_eq_true, or_self, if_false,
        and_false, false_and, if_true, if_false]
    · have hxi' : isInfB x = false := by
        cases h : isInfB x
        · rfl
        · exact absurd h hxi
      simp only [fadd, hxn', hyn, hxi', hyi, Bool.false_eq_true, or_self, if_false,
        and_false, false_and, and_self]
      rw [min_comm (expZ y) (expZ x)]
      rw [add_comm (mantZ y * 2 ^ (expZ y - min (expZ x) (expZ y)).toNat)
        (mantZ x * 2 ^ (expZ x - min (expZ x) (expZ y)).toNat)]
      by_cases hM : mantZ x * 2 ^ (expZ x - expZ x ⊓ expZ y).toNat +
          mantZ y * 2 ^ (expZ y - expZ x ⊓ expZ y).toNat = 0
      · rw [if_pos hM, if_pos hM]
        by_cases hsx : sgnB x = 1 <;> by_cases hsy : sgnB y = 1 <;> simp [hsx, hsy]
      · rw [if_neg hM, if_neg hM]

/-! ## Bit-manipulation lemmas: the mask/shift operations of the lanes
compute the IEEE-754 fields -/

/-- `_mm_and_ps(aVal, 0x7fffff)` extracts the significand field. -/
theorem land_sig (a : ℕ) : Nat.land a 0x7fffff = sigB a := by
  have h : Nat.land a 0x7fffff = a &&& (2 ^ 23 - 1) := by norm_num [HAnd.hAnd, AndOp.and]
  rw [h, Nat.and_pow_two_sub_one_eq_mod]
  rfl

/-- Masking with `0x7f800000` and shifting right by 23 extracts the biased
exponent field. -/
theorem land_exp_shift (a : ℕ) : Nat.land a 0x7f800000 >>> 23 = expB a := by
  have hmask : (0x7f800000 : ℕ) = (2 ^ 8 - 1) <<< 23 := by decide
  have hexp : expB a = a >>> 23 % 2 ^ 8 := by
    unfold expB
    rw [Nat.shiftRight_eq_div_pow]
  have hland : Nat.land a 0x7f800000 = a &&& (2 ^ 8 - 1) <<< 23 := by
    rw [← hmask]
    norm_num [HAnd.hAnd, AndOp.and]
  rw [hland, hexp]
  apply Nat.eq_of_testBit_eq
  intro i
  simp only [Nat.testBit_shiftRight, Nat.testBit_and, Nat.testBit_mod_two_pow,
    Nat.testBit_shiftLeft, Nat.testBit_two_pow_sub_one]
  by_cases h8 : i < 8
  · have h23 : 23 + i - 23 = i := by omega
    have hge : 23 ≤ 23 + i := by omega
    simp [h23, hge, h8, Bool.and_comm]
  · have : ¬(23 + i - 23 < 8) := by omega
    simp [this, h8]

/-- OR-ing a 23-bit value into the pattern of `1.0f` adds it to the
significand field. -/
theorem lor_one_sig (y : ℕ) (hy : y < 2 ^ 23) :
    Nat.lor 0x3f800000 y = 0x3f800000 + y := by
  have h1 : Nat.lor 0x3f800000 y = 2 ^ 23 * 127 ||| y := by norm_num [HOr.hOr, OrOp.or]
  rw [h1, ← Nat.mul_add_lt_is_or hy 127]

/-- OR-ing a 23-bit value into the NEON leading-one constant `0x800000`. -/
theorem lor_neon_sig (y : ℕ) (hy : y < 2 ^ 23) :
    Nat.lor 0x800000 y = 0x800000 + y := by
  have h1 : Nat.lor 0x800000 y = 2 ^ 23 * 1 ||| y := by norm_num [HOr.hOr, OrOp.or]
  rw [h1, ← Nat.mul_add_lt_is_or hy 1]

theorem sigB_lt (a : ℕ) : sigB a < 2 ^ 23 := Nat.mod_lt _ (by norm_num)

theorem expB_lt (a : ℕ) : expB a < 2 ^ 8 := Nat.mod_lt _ (by norm_num)

/-! ## The specification's per-element formula (§4.1, §4.2) -/

/-- The per-element computation exactly as the specification words it:
`E` is the biased exponent field minus 127, converted to float; `m` is the
23-bit significand field with the implicit leading one, i.e. the binary32
value `1 + sig/2^23` (bit pattern `0x3f800000 + sig`); `P` is the degree-6
minimax polynomial with coefficients `c0..c5` evaluated by Horner's scheme
in single precision; the result is `E + P(m) * (m - 1)` — the polynomial
value weighted by `(m - 1)` before being added to `E`, not added directly. -/
def specLane (a : ℕ) : ℕ :=
  let E : ℤ := (expB a : ℤ) - 127
  let Ef : ℕ := cvtepi32 E
  let m : ℕ := 0x3f800000 + sigB a
  let P : ℕ :=
    fadd (fmul (fadd (fmul (fadd (fmul (fadd (fmul (fadd (fmul c5f m) c4f) m) c3f) m)
      c2f) m) c1f) m) c0f
  fadd Ef (fmul P (fsub m leadingOne))

theorem leadingOne_eq : leadingOne = 0x3f800000 := rfl

/-- The non-fused vector lanes of `cvtepi32`-exponent, mask, OR and Horner
operations compute exactly the specification's formula: the SSE4.1 case. -/
theorem sse4_1_lane_eq_spec (a : ℕ) : sse4_1_lane a = specLane a := by
  unfold sse4_1_lane specLane POLY5 POLY4 POLY3 POLY2 POLY1 POLY0
  rw [land_exp_shift, land_sig, leadingOne_eq, lor_one_sig (sigB a) (sigB_lt a)]

/-- The biased-exponent conversion never yields a NaN or infinite pattern. -/
theorem cvt_exp_ok (a : ℕ) :
    isNaNB (cvtepi32 ((expB a : ℤ) - 127)) = false ∧
      isInfB (cvtepi32 ((expB a : ℤ) - 127)) = false := by
  have hlt := expB_lt a
  obtain ⟨h1, h2, h3⟩ := cvtepi32_notSpecial ((expB a : ℤ) - 127) (by
    have : ((expB a : ℤ) - 127).natAbs ≤ 128 := by omega
    omega)
  exact ⟨isNaNB_eq_false h2, isInfB_eq_false h2⟩

/-- The non-fused AVX2 lane also computes the specification's formula (its
final addition lists the operands in the opposite order). -/
theorem avx2_lane_eq_spec (a : ℕ) : avx2_lane a = specLane a := by
  unfold avx2_lane specLane POLY5 POLY4 POLY3 POLY2 POLY1 POLY0
  rw [land_exp_shift, land_sig, leadingOne_eq, lor_one_sig (sigB a) (sigB_lt a)]
  obtain ⟨hn, hi⟩ := cvt_exp_ok a
  exact fadd_comm_right _ _ hn hi

/-! ## Exact behaviour on powers of two -/

/-- The bit pattern of `2 ^ k`, a normal binary32 value for `-126 ≤ k ≤ 127`. -/
def pow2pat (k : ℤ) : ℕ := (k + 127).toNat * 2 ^ 23

theorem expB_pow2 (k : ℤ) (h1 : -126 ≤ k) (h2 : k ≤ 127) :
    expB (pow2pat k) = (k + 127).toNat := by
  unfold pow2pat expB
  have h : (k + 127).toNat ≤ 254 := by omega
  omega

theorem sigB_pow2 (k : ℤ) : sigB (pow2pat k) = 0 := by
  unfold pow2pat sigB
  omega

/-- Multiplying a finite positive-signed pattern by `+0` gives `+0`. -/
theorem fmul_pzero (x : ℕ) (hn : isNaNB x = false) (hi : isInfB x = false)
    (hs : sgnB x = 0) : fmul x 0 = 0 := by
  have hn0 : isNaNB (0 : ℕ) = false := rfl
  have hi0 : isInfB (0 : ℕ) = false := rfl
  simp only [fmul, hn, hn0, hi, hi0, Bool.false_eq_true, or_self, if_false, and_false,
    false_and, and_self, false_or, or_false]
  rw [mantZ_zero, mul_zero]
  have hs0 : sgnB 0 = 0 := rfl
  norm_num [hs, hs0]

theorem cvt_k_facts (k : ℤ) (h1 : -126 ≤ k) (h2 : k ≤ 127) :
    cvtepi32 k < 2 ^ 32 ∧ expB (cvtepi32 k) ≠ 255 ∧ cvtepi32 k ≠ 2 ^ 31 := by
  obtain ⟨ha, hb, hc⟩ := cvtepi32_notSpecial k (by omega)
  refine ⟨ha, hb, ?_⟩
  by_cases hk : k = 0
  · subst hk
    norm_num [cvtepi32]
  · intro he
    apply hc hk
    rw [he]
    norm_num [expB]

/-- Adding `x * (+0)` on the right is the identity for patterns that are not
`-0`, NaN or infinite. -/
theorem fadd_fmul_pzero (z x : ℕ) (hzlt : z < 2 ^ 32) (hzf : expB z ≠ 255)
    (hz2 : z ≠ 2 ^ 31) (hxn : isNaNB x = false) (hxi : isInfB x = false)
    (hxs : sgnB x = 0) : fadd z (fmul x 0) = z := by
  rw [fmul_pzero x hxn hxi hxs]
  by_cases hz : expB z = 0 ∧ sigB z = 0
  · have hz0 : z = 0 := by
      have hd : z = sgnB z * 2 ^ 31 + expB z * 2 ^ 23 + sigB z := by
        unfold sgnB expB sigB
        omega
      have hsg : sgnB z < 2 := Nat.mod_lt _ (by norm_num)
      rcases Nat.eq_zero_or_pos (sgnB z) with h | h
      · omega
      · exfalso
        apply hz2
        omega
    subst hz0
    rfl
  · exact fadd_pzero z hzlt hzf hz

/-- Adding `x * (+0)` on the left is the identity under the same side
conditions. -/
theorem fadd_fmul_pzero_left (z x : ℕ) (hzlt : z < 2 ^ 32) (hzf : expB z ≠ 255)
    (hz2 : z ≠ 2 ^ 31) (hxn : isNaNB x = false) (hxi : isInfB x = false)
    (hxs : sgnB x = 0) : fadd (fmul x 0) z = z := by
  rw [fmul_pzero x hxn hxi hxs]
  by_cases hz : expB z = 0 ∧ sigB z = 0
  · have hz0 : z = 0 := by
      have hd : z = sgnB z * 2 ^ 31 + expB z * 2 ^ 23 + sigB z := by
        unfold sgnB expB sigB
        omega
      have hsg : sgnB z < 2 := Nat.mod_lt _ (by norm_num)
      rcases Nat.eq_zero_or_pos (sgnB z) with h | h
      · omega
      · exfalso
        apply hz2
        omega
    subst hz0
    rfl
  · exact fadd_zero_left z hzlt hzf hz

set_option maxRecDepth 100000 in
/-- The specification's formula is exact on powers of two: the polynomial
term is weighted by `m - 1 = 0`, so the output is the exponent `k`
converted to float. -/
theorem specLane_pow2 (k : ℤ) (h1 : -126 ≤ k) (h2 : k ≤ 127) :
    specLane (pow2pat k) = cvtepi32 k := by
  unfold specLane
  rw [expB_pow2 k h1 h2, sigB_pow2 k]
  have hEk : (((k + 127).toNat : ℤ)) - 127 = k := by omega
  rw [hEk]
  norm_num
  have hsub : fsub 0x3f800000 leadingOne = 0 := by decide
  rw [hsub]
  obtain ⟨ha, hb, hc⟩ := cvt_k_facts k h1 h2
  exact fadd_fmul_pzero _ _ ha hb hc (by decide) (by decide) (by decide)

theorem sse4_1_lane_pow2 (k : ℤ) (h1 : -126 ≤ k) (h2 : k ≤ 127) :
    sse4_1_lane (pow2pat k) = cvtepi32 k := by
  rw [sse4_1_lane_eq_spec, specLane_pow2 k h1 h2]

theorem avx2_lane_pow2 (k : ℤ) (h1 : -126 ≤ k) (h2 : k ≤ 127) :
    avx2_lane (pow2pat k) = cvtepi32 k := by
  rw [avx2_lane_eq_spec, specLane_pow2 k h1 h2]

set_option maxRecDepth 100000 in
theorem avx2_fma_lane_pow2 (k : ℤ) (h1 : -126 ≤ k) (h2 : k ≤ 127) :
    avx2_fma_lane (pow2pat k) = cvtepi32 k := by
  unfold avx2_fma_lane POLY5F POLY4F POLY3F POLY2F POLY1F POLY0F
  rw [land_exp_shift, land_sig, leadingOne_eq, lor_one_sig _ (sigB_lt _),
    expB_pow2 k h1 h2, sigB_pow2 k]
  have hEk : (((k + 127).toNat : ℤ)) - 127 = k := by omega
  rw [hEk]
  norm_num
  have hsub : fsub 0x3f800000 0x3f800000 = 0 := by decide
  rw [hsub]
  obtain ⟨ha, hb, hc⟩ := cvt_k_facts k h1 h2
  exact ffma_zero_mid _ _ (by decide) ha hb hc

/-! ## Structure of the vector sweep -/

/-- Unrolling the sweep: `q` groups of `W` through the lane, the rest through
the scalar tail kernel. -/
theorem vecSweep_eq (W : ℕ) (lane : ℕ → ℕ) (tailK : List ℕ → List ℕ) :
    ∀ (q : ℕ) (xs : List ℕ),
      vecSweep W lane tailK q xs =
        (xs.take (q * W)).map lane ++ tailK (xs.drop (q * W)) := by
  intro q
  induction q with
  | zero =>
    intro xs
    simp [vecSweep]
  | succ q ih =>
    intro xs
    rw [vecSweep, ih (xs.drop W)]
    have h1 : (q + 1) * W = W + q * W := by ring
    rw [h1, List.take_add, List.map_append, List.append_assoc]
    rw [List.drop_drop]

/-- The sweep called the way every kernel calls it writes exactly the lane
images on the first `⌊N/W⌋·W` positions and the scalar-kernel image of the
tail slice after them. -/
theorem kernel_shape (W : ℕ) (lane : ℕ → ℕ) (tailK : List ℕ → List ℕ) (xs : List ℕ) :
    vecSweep W lane tailK (xs.length / W) xs =
      (xs.take (xs.length / W * W)).map lane ++ tailK (xs.drop (xs.length / W * W)) :=
  vecSweep_eq W lane tailK (xs.length / W) xs

/-- Dropping the vector-processed prefix leaves exactly the scalar kernel
applied to the tail slice. -/
theorem vecSweep_drop (W : ℕ) (lane : ℕ → ℕ) (tailK : List ℕ → List ℕ) (xs : List ℕ) :
    (vecSweep W lane tailK (xs.length / W) xs).drop (xs.length / W * W) =
      tailK (xs.drop (xs.length / W * W)) := by
  rw [kernel_shape]
  have hle : xs.length / W * W ≤ xs.length := Nat.div_mul_le_self _ _
  have hlen2 : ((xs.take (xs.length / W * W)).map lane).length = xs.length / W * W := by
    simp [List.length_take]
    omega
  have hd := List.drop_left ((xs.take (xs.length / W * W)).map lane)
    (tailK (xs.drop (xs.length / W * W)))
  rw [hlen2] at hd
  exact hd

/-- The sweep preserves the length when the tail kernel does. -/
theorem vecSweep_length (W : ℕ) (lane : ℕ → ℕ) (tailK : List ℕ → List ℕ)
    (hlen : ∀ ys : List ℕ, (tailK ys).length = ys.length) (xs : List ℕ) :
    (vecSweep W lane tailK (xs.length / W) xs).length = xs.length := by
  rw [kernel_shape]
  have hle : xs.length / W * W ≤ xs.length := Nat.div_mul_le_self _ _
  simp only [List.length_append, List.length_map, List.length_take, List.length_drop, hlen]
  try omega

/-- Every vector-portion element is the lane image of the matching input. -/
theorem vecSweep_getElem_lane (W : ℕ) (lane : ℕ → ℕ) (tailK : List ℕ → List ℕ)
    (xs : List ℕ) (i : ℕ) (hi : i < xs.length / W * W) :
    (vecSweep W lane tailK (xs.length / W) xs)[i]? = (xs[i]?).map lane := by
  rw [kernel_shape]
  have hle : xs.length / W * W ≤ xs.length := Nat.div_mul_le_self _ _
  have hlen2 : ((xs.take (xs.length / W * W)).map lane).length = xs.length / W * W := by
    simp [List.length_take]
    omega
  rw [List.getElem?_append_left (by omega)]
  rw [List.getElem?_map]
  rw [List.getElem?_take_of_lt hi]

/-! ## Special values through the scalar kernels -/

theorem log2f_non_ieee_pinf (l2 : ℕ → ℕ) : log2f_non_ieee l2 0x7f800000 = c127f := by
  unfold log2f_non_ieee log2fP
  norm_num [isNaNB, isZeroB, isInfB, expB, sigB, sgnB, copysignf, qNaNB, c127f, n127f]

theorem log2f_non_ieee_minf (l2 : ℕ → ℕ) : log2f_non_ieee l2 0xff800000 = qNaNB := by
  unfold log2f_non_ieee log2fP
  norm_num [isNaNB, isZeroB, isInfB, expB, sigB, sgnB, copysignf, qNaNB, c127f, n127f]

theorem log2f_non_ieee_zero (l2 : ℕ → ℕ) : log2f_non_ieee l2 0 = n127f := by
  unfold log2f_non_ieee log2fP
  norm_num [isNaNB, isZeroB, isInfB, expB, sigB, sgnB, copysignf, qNaNB, c127f, n127f]

theorem log2f_non_ieee_nzero (l2 : ℕ → ℕ) : log2f_non_ieee l2 0x80000000 = n127f := by
  unfold log2f_non_ieee log2fP
  norm_num [isNaNB, isZeroB, isInfB, expB, sigB, sgnB, copysignf, qNaNB, c127f, n127f]

theorem u_generic_elem_pinf (l2 : ℕ → ℕ) : u_generic_elem l2 0x7f800000 = n127f := by
  unfold u_generic_elem log2fP
  norm_num [isNaNB, isZeroB, isInfB, expB, sigB, sgnB, copysignf, qNaNB, c127f, n127f]

theorem u_generic_elem_minf (l2 : ℕ → ℕ) : u_generic_elem l2 0xff800000 = qNaNB := by
  unfold u_generic_elem log2fP
  norm_num [isNaNB, isZeroB, isInfB, expB, sigB, sgnB, copysignf, qNaNB, c127f, n127f]

theorem u_generic_elem_zero (l2 : ℕ → ℕ) : u_generic_elem l2 0 = n127f := by
  unfold u_generic_elem log2fP
  norm_num [isNaNB, isZeroB, isInfB, expB, sigB, sgnB, copysignf, qNaNB, c127f, n127f]

theorem u_generic_elem_nzero (l2 : ℕ → ℕ) : u_generic_elem l2 0x80000000 = n127f := by
  unfold u_generic_elem log2fP
  norm_num [isNaNB, isZeroB, isInfB, expB, sigB, sgnB, copysignf, qNaNB, c127f, n127f]

/-- On a positive finite argument `log2f` is the abstract platform value,
and the sign-preserving wrapper only intercepts infinite results. -/
theorem log2f_non_ieee_posfin (l2 : ℕ → ℕ) (x : ℕ) (hx : expB x ≠ 255)
    (hnz : ¬(expB x = 0 ∧ sigB x = 0)) (hs : ¬(sgnB x = 1)) :
    log2f_non_ieee l2 x = if isInfB (l2 x) then copysignf c127f (l2 x) else l2 x := by
  have hne : x ≠ 0x7f800000 := by
    intro he
    apply hx
    rw [he]
    rfl
  unfold log2f_non_ieee log2fP
  rw [isNaNB_eq_false hx, isZeroB_eq_false hnz]
  simp only [Bool.false_eq_true, if_false, if_neg hne, if_neg hs]

theorem u_generic_elem_posfin (l2 : ℕ → ℕ) (x : ℕ) (hx : expB x ≠ 255)
    (hnz : ¬(expB x = 0 ∧ sigB x = 0)) (hs : ¬(sgnB x = 1)) :
    u_generic_elem l2 x = if isInfB (l2 x) then n127f else l2 x := by
  have hne : x ≠ 0x7f800000 := by
    intro he
    apply hx
    rw [he]
    rfl
  unfold u_generic_elem log2fP
  rw [isNaNB_eq_false hx, isZeroB_eq_false hnz]
  simp only [Bool.false_eq_true, if_false, if_neg hne, if_neg hs]

/-! ## A decidable closeness check and its meaning -/

/-- `nearB p k num den` checks, in integer arithmetic, that the finite
pattern `p` represents a value within `num/den` of the integer `k`. -/
def nearB (p : ℕ) (k : ℤ) (num den : ℕ) : Bool :=
  isFiniteB p &&
    (if 0 ≤ expZ p then den * (mantZ p * 2 ^ (expZ p).toNat - k).natAbs ≤ num
     else den * (mantZ p - k * 2 ^ (-expZ p).toNat).natAbs ≤ num * 2 ^ (-expZ p).toNat)

/-- A successful `nearB` check bounds the exact rational value of the
pattern. -/
theorem natAbs_cast_q (z : ℤ) : ((z.natAbs : ℕ) : ℚ) = |(z : ℚ)| := by
  rw [← Int.cast_abs, ← Int.natCast_natAbs, Int.cast_natCast]

theorem nearB_le {p : ℕ} {k : ℤ} {num den : ℕ} (hden : 0 < den)
    (h : nearB p k num den = true) : |valQ p - (k : ℚ)| ≤ (num : ℚ) / den := by
  unfold nearB at h
  rw [Bool.and_eq_true] at h
  obtain ⟨hfin, hbr⟩ := h
  unfold valQ
  have hdenQ : (0 : ℚ) < den := by exact_mod_cast hden
  by_cases he : 0 ≤ expZ p
  · rw [if_pos he, decide_eq_true_eq] at hbr
    set a := (expZ p).toNat with ha
    have he2 : expZ p = (a : ℤ) := (Int.toNat_of_nonneg he).symm
    rw [he2, zpow_natCast]
    rw [le_div_iff hdenQ]
    have hZ : |(mantZ p : ℚ) * 2 ^ a - (k : ℚ)| = (((mantZ p * 2 ^ a - k).natAbs : ℕ) : ℚ) := by
      rw [natAbs_cast_q]
      push_cast
      ring_nf
    rw [hZ]
    have hq : (den : ℚ) * (((mantZ p * 2 ^ a - k).natAbs : ℕ) : ℚ) ≤ (num : ℚ) := by
      exact_mod_cast hbr
    linarith
  · rw [if_neg he, decide_eq_true_eq] at hbr
    set a := (-expZ p).toNat with ha
    have he2 : expZ p = -(a : ℤ) := by omega
    rw [he2, zpow_neg, zpow_natCast]
    have hpow : (0 : ℚ) < 2 ^ a := by positivity
    have key : (mantZ p : ℚ) * ((2 : ℚ) ^ a)⁻¹ - (k : ℚ) =
        ((mantZ p - k * 2 ^ a : ℤ) : ℚ) / ((2 : ℚ) ^ a) := by
      field_simp
      push_cast
      ring
    rw [key, abs_div, abs_of_pos hpow]
    rw [div_le_div_iff hpow hdenQ]
    have hZ : |((mantZ p - k * 2 ^ a : ℤ) : ℚ)| = (((mantZ p - k * 2 ^ a).natAbs : ℕ) : ℚ) := by
      rw [natAbs_cast_q]
    rw [hZ]
    have hq : (((mantZ p - k * 2 ^ a).natAbs : ℕ) : ℚ) * (den : ℚ) ≤ (num : ℚ) * 2 ^ a := by
      have hq0 : ((den * (mantZ p - k * 2 ^ a).natAbs : ℕ) : ℚ) ≤
          ((num * 2 ^ a : ℕ) : ℚ) := by exact_mod_cast hbr
      push_cast at hq0
      linarith
    exact hq

/-! ## Exact values of small encoded integers -/

theorem valQ_encodePos_small (m : ℕ) (h1 : 1 ≤ m) (h2 : m < 2 ^ 24) :
    valQ (encodePos m 0) = m := by
  obtain ⟨-, -, heq⟩ := encodePos_small m h1 h2
  obtain ⟨hl, hr⟩ := blen_spec (by omega : 0 < m) (by
    calc m < 2 ^ 24 := h2
    _ ≤ 2 ^ 2000 := Nat.pow_le_pow_right (by norm_num) (by norm_num))
  have hbpos : 0 < blen m := by
    by_contra hz
    have h0 : blen m = 0 := by omega
    rw [h0] at hr
    norm_num at hr
    omega
  have hble : blen m ≤ 24 := by
    by_contra hgt
    have h24 : 2 ^ 24 ≤ 2 ^ (blen m - 1) := Nat.pow_le_pow_right (by norm_num) (by omega)
    omega
  have hnlo : 2 ^ 23 ≤ m * 2 ^ (24 - blen m) := by
    calc 2 ^ 23 = 2 ^ (blen m - 1) * 2 ^ (24 - blen m) := by
          rw [← pow_add]
          congr 1
          omega
    _ ≤ m * 2 ^ (24 - blen m) := Nat.mul_le_mul_right _ hl
  have hnhi : m * 2 ^ (24 - blen m) < 2 ^ 24 := by
    calc m * 2 ^ (24 - blen m) < 2 ^ blen m * 2 ^ (24 - blen m) :=
          (Nat.mul_lt_mul_right (Nat.two_pow_pos _)).mpr hr
    _ = 2 ^ 24 := by
          rw [← pow_add]
          congr 1
          omega
  have hexp : expB (encodePos m 0) = blen m + 126 := by
    rw [heq]
    unfold expB
    omega
  have hsig : sigB (encodePos m 0) = m * 2 ^ (24 - blen m) - 2 ^ 23 := by
    rw [heq]
    unfold sigB
    omega
  have hsgn : sgnB (encodePos m 0) = 0 := by
    rw [heq]
    unfold sgnB
    have hsmall : (blen m + 125) * 2 ^ 23 ≤ 149 * 2 ^ 23 := Nat.mul_le_mul_right _ (by omega)
    omega
  unfold valQ mantZ expZ
  rw [hexp, hsig, hsgn]
  rw [if_neg (by norm_num : ¬(0 : ℕ) = 1), if_neg (by omega : ¬blen m + 126 = 0),
    if_neg (by omega : ¬blen m + 126 = 0)]
  rw [Nat.cast_sub hnlo]
  have hzexp : ((blen m + 126 : ℕ) : ℤ) - 150 = -(((24 - blen m : ℕ)) : ℤ) := by omega
  rw [hzexp, zpow_neg, zpow_natCast]
  have hp : ((2 : ℚ) ^ (24 - blen m)) ≠ 0 := by positivity
  push_cast
  field_simp

/-- Negating the sign bit negates the represented value. -/
theorem valQ_neg_shift (P : ℕ) (hP : P < 2 ^ 31) : valQ (P + 2 ^ 31) = -valQ P := by
  have hsgn1 : sgnB (P + 2 ^ 31) = 1 := by
    unfold sgnB
    omega
  have hsgn0 : sgnB P = 0 := by
    unfold sgnB
    omega
  have hexp : expB (P + 2 ^ 31) = expB P := by
    unfold expB
    omega
  have hsig : sigB (P + 2 ^ 31) = sigB P := by
    unfold sigB
    omega
  unfold valQ mantZ expZ
  rw [hsgn1, hsgn0, hexp, hsig]
  rw [if_pos rfl, if_neg (by norm_num : ¬(0 : ℕ) = 1)]
  push_cast
  ring

/-- The integer-to-float conversion is exact on integers below `2 ^ 24`. -/
theorem valQ_cvtepi32 (k : ℤ) (hk : k.natAbs < 2 ^ 24) : valQ (cvtepi32 k) = k := by
  by_cases h0 : k = 0
  · subst h0
    norm_num [cvtepi32, valQ, mantZ, sgnB, expB, sigB]
  · have habs1 : 1 ≤ k.natAbs := by omega
    have hval := valQ_encodePos_small k.natAbs habs1 hk
    obtain ⟨-, hhi, -⟩ := encodePos_small k.natAbs habs1 hk
    unfold cvtepi32 encodeZ
    rw [if_neg h0]
    by_cases hsgn : k < 0
    · rw [if_pos hsgn, valQ_neg_shift _ (by omega), hval, natAbs_cast_q,
        abs_of_neg (show (k : ℚ) < 0 by exact_mod_cast hsgn), neg_neg]
    · rw [if_neg hsgn, hval, natAbs_cast_q,
        abs_of_nonneg (show (0 : ℚ) ≤ (k : ℚ) by exact_mod_cast not_lt.mp hsgn)]

/-- Evaluate the rational value of a concrete pattern from its computed
integer significand `M` and (negated) scale exponent `E`. -/
theorem valQ_eval (p : ℕ) (M : ℤ) (E : ℕ) (hm : mantZ p = M) (he : expZ p = -(E : ℤ)) :
    valQ p = (M : ℚ) / 2 ^ E := by
  unfold valQ
  rw [hm, he, zpow_neg, zpow_natCast, div_eq_mul_inv]

/-! ## Powers of two through the scalar kernels -/

theorem pow2pat_facts (k : ℤ) (h1 : -126 ≤ k) (h2 : k ≤ 127) :
    expB (pow2pat k) ≠ 255 ∧ ¬(expB (pow2pat k) = 0 ∧ sigB (pow2pat k) = 0) ∧
      ¬sgnB (pow2pat k) = 1 := by
  have he := expB_pow2 k h1 h2
  refine ⟨by omega, by omega, ?_⟩
  unfold sgnB pow2pat
  have hle : (k + 127).toNat ≤ 254 := by omega
  omega

/-- Both scalar kernels map `2 ^ k` to the float conversion of `k` whenever
the platform `log2f` does. -/
theorem scalar_pow2 (l2 : ℕ → ℕ) (k : ℤ) (h1 : -126 ≤ k) (h2 : k ≤ 127)
    (hl2 : l2 (pow2pat k) = cvtepi32 k) :
    log2f_non_ieee l2 (pow2pat k) = cvtepi32 k ∧
      u_generic_elem l2 (pow2pat k) = cvtepi32 k := by
  obtain ⟨hf, hnz, hsn⟩ := pow2pat_facts k h1 h2
  obtain ⟨-, hcf, -⟩ := cvt_k_facts k h1 h2
  have hinfc : isInfB (cvtepi32 k) = false := isInfB_eq_false hcf
  constructor
  · rw [log2f_non_ieee_posfin l2 _ hf hnz hsn, hl2]
    simp [hinfc]
  · rw [u_generic_elem_posfin l2 _ hf hnz hsn, hl2]
    simp [hinfc]

/-- A concrete instance of the abstract platform `log2f` primitive (exact on
powers of two), used to instantiate the hypothesis-bearing theorems on
concrete inputs. -/
def l2x (p : ℕ) : ℕ := cvtepi32 ((expB p : ℤ) - 127)

theorem l2x_pow2 (k : ℤ) (h1 : -126 ≤ k) (h2 : k ≤ 127) :
    l2x (pow2pat k) = cvtepi32 k := by
  unfold l2x
  rw [expB_pow2 k h1 h2]
  congr 1
  omega

/-- On finite non-negative inputs the two scalar kernels agree (provided the
platform `log2f` returns a 32-bit pattern other than `+inf`, as it does on
positive finite arguments). -/
theorem generic_elem_agree (l2 : ℕ → ℕ) (x : ℕ) (hfin : isFiniteB x = true)
    (hnn : sgnB x = 0 ∨ isZeroB x = true)
    (hr : l2 x < 2 ^ 32) (hp : l2 x ≠ 0x7f800000) :
    log2f_non_ieee l2 x = u_generic_elem l2 x := by
  have hf : expB x ≠ 255 := by simpa [isFiniteB] using hfin
  by_cases hz : isZeroB x = true
  · have hN : isNaNB x = false := isNaNB_eq_false hf
    unfold log2f_non_ieee u_generic_elem log2fP
    rw [hN, hz]
    norm_num [isInfB, expB, sigB, copysignf, sgnB, c127f, n127f]
  · have hnz : ¬(expB x = 0 ∧ sigB x = 0) := by simpa [isZeroB] using hz
    have hs : ¬sgnB x = 1 := by
      rcases hnn with h | h
      · omega
      · exact absurd h hz
    rw [log2f_non_ieee_posfin l2 x hf hnz hs, u_generic_elem_posfin l2 x hf hnz hs]
    by_cases hi : isInfB (l2 x) = true
    · have hfields : expB (l2 x) = 255 ∧ sigB (l2 x) = 0 := by simpa [isInfB] using hi
      have hm : l2 x = 0xff800000 := by
        obtain ⟨ha, hb⟩ := hfields
        unfold expB at ha
        unfold sigB at hb
        omega
      rw [hm]
      decide
    · rw [Bool.not_eq_true] at hi
      rw [hi]
      norm_num

/-! ## The claims -/

/-- C2: for every vector variant of width `W` and every length `N`, the
output elements at indices `≥ ⌊N/W⌋·W` are bit-identical to the variant's
scalar reference kernel applied to the same tail slice of the input (the
aligned tree delegates to `volk_32f_log2_32f_generic`, the unaligned tree to
`volk_32f_log2_32f_u_generic`). -/
theorem C2_tail_bit_identical (l2 : ℕ → ℕ) (a : List ℕ) :
    (volk_32f_log2_32f_a_sse4_1 l2 a).drop (a.length / 4 * 4) =
      volk_32f_log2_32f_generic l2 (a.drop (a.length / 4 * 4)) ∧
    (volk_32f_log2_32f_u_sse4_1 l2 a).drop (a.length / 4 * 4) =
      volk_32f_log2_32f_u_generic l2 (a.drop (a.length / 4 * 4)) ∧
    (volk_32f_log2_32f_a_avx2 l2 a).drop (a.length / 8 * 8) =
      volk_32f_log2_32f_generic l2 (a.drop (a.length / 8 * 8)) ∧
    (volk_32f_log2_32f_u_avx2 l2 a).drop (a.length / 8 * 8) =
      volk_32f_log2_32f_u_generic l2 (a.drop (a.length / 8 * 8)) ∧
    (volk_32f_log2_32f_a_avx2_fma l2 a).drop (a.length / 8 * 8) =
      volk_32f_log2_32f_generic l2 (a.drop (a.length / 8 * 8)) ∧
    (volk_32f_log2_32f_u_avx2_fma l2 a).drop (a.length / 8 * 8) =
      volk_32f_log2_32f_u_generic l2 (a.drop (a.length / 8 * 8)) ∧
    (volk_32f_log2_32f_neon l2 a).drop (a.length / 4 * 4) =
      volk_32f_log2_32f_generic l2 (a.drop (a.length / 4 * 4)) :=
  ⟨vecSweep_drop 4 sse4_1_lane (volk_32f_log2_32f_generic l2) a,
    vecSweep_drop 4 sse4_1_lane (volk_32f_log2_32f_u_generic l2) a,
    vecSweep_drop 8 avx2_lane (volk_32f_log2_32f_generic l2) a,
    vecSweep_drop 8 avx2_lane (volk_32f_log2_32f_u_generic l2) a,
    vecSweep_drop 8 avx2_fma_lane (volk_32f_log2_32f_generic l2) a,
    vecSweep_drop 8 avx2_fma_lane (volk_32f_log2_32f_u_generic l2) a,
    vecSweep_drop 4 vlog2q_neon_f32 (volk_32f_log2_32f_generic l2) a⟩

/-- C5: the aligned and unaligned trees do NOT saturate infinite results
with the same sign policy.  On the one-element input `+inf` every aligned
x86 kernel outputs `+127.0` (pattern `0x42fe0000`) while its unaligned
counterpart outputs `-127.0` (pattern `0xc2fe0000`); the two policies agree
on input `0` (both `-127.0`), so the divergence is exactly the sign of the
saturation of `+inf`.  This contradicts the header's documented behaviour
("+-Inf outputs are mapped to +-127.0f"); the code bug is
`volk_32f_log2_32f_u_generic`'s unconditional `-127.0f`. -/
theorem C5_aligned_unaligned_policy_divergence (l2 : ℕ → ℕ) :
    volk_32f_log2_32f_a_sse4_1 l2 [0x7f800000] = [c127f] ∧
    volk_32f_log2_32f_u_sse4_1 l2 [0x7f800000] = [n127f] ∧
    volk_32f_log2_32f_a_avx2 l2 [0x7f800000] = [c127f] ∧
    volk_32f_log2_32f_u_avx2 l2 [0x7f800000] = [n127f] ∧
    volk_32f_log2_32f_a_avx2_fma l2 [0x7f800000] = [c127f] ∧
    volk_32f_log2_32f_u_avx2_fma l2 [0x7f800000] = [n127f] ∧
    c127f ≠ n127f ∧
    volk_32f_log2_32f_a_sse4_1 l2 [0] = [n127f] ∧
    volk_32f_log2_32f_u_sse4_1 l2 [0] = [n127f] := by
  refine ⟨?_, ?_, ?_, ?_, ?_, ?_, by decide, ?_, ?_⟩
  · show [log2f_non_ieee l2 0x7f800000] = [c127f]
    rw [log2f_non_ieee_pinf l2]
  · show [u_generic_elem l2 0x7f800000] = [n127f]
    rw [u_generic_elem_pinf l2]
  · show [log2f_non_ieee l2 0x7f800000] = [c127f]
    rw [log2f_non_ieee_pinf l2]
  · show [u_generic_elem l2 0x7f800000] = [n127f]
    rw [u_generic_elem_pinf l2]
  · show [log2f_non_ieee l2 0x7f800000] = [c127f]
    rw [log2f_non_ieee_pinf l2]
  · show [u_generic_elem l2 0x7f800000] = [n127f]
    rw [u_generic_elem_pinf l2]
  · show [log2f_non_ieee l2 0] = [n127f]
    rw [log2f_non_ieee_zero l2]
  · show [u_generic_elem l2 0] = [n127f]
    rw [u_generic_elem_zero l2]

/-- C7: on every input (in particular every normal binary32 pattern) the two
non-fused x86 vector lanes compute exactly `E + P(m)·(m-1)` in
single-precision arithmetic, where `E` is the biased exponent field minus
127 converted to float, `m` is the significand field with the implicit
leading one ORed in, and `P` is the degree-6 Horner polynomial with the
listed coefficients `c0..c5` — the formula captured verbatim from the
specification's words by `specLane`. -/
theorem C7_nonfused_lane_formula (a : ℕ) (h : isNormalB a = true) :
    sse4_1_lane a = specLane a ∧ avx2_lane a = specLane a :=
  ⟨sse4_1_lane_eq_spec a, avx2_lane_eq_spec a⟩

theorem C7_nonfused_lane_formula_witness :
    sse4_1_lane 0x40490fdb = specLane 0x40490fdb ∧
      avx2_lane 0x40490fdb = specLane 0x40490fdb :=
  C7_nonfused_lane_formula 0x40490fdb (by decide)

/-- C9: the sweep writes every output index exactly once — the output has
the input's length, its first `⌊N/W⌋·W` entries are the lane images of the
matching inputs, and the rest is the scalar kernel of the tail slice; for
`N = 7`, `W = 4` (any seven elements) exactly one group of four goes through
the vector lane and the three trailing elements through the scalar kernel. -/
theorem C9_loop_coverage (l2 : ℕ → ℕ) (a : List ℕ) (x0 x1 x2 x3 x4 x5 x6 : ℕ) :
    (volk_32f_log2_32f_a_sse4_1 l2 a).length = a.length ∧
    volk_32f_log2_32f_a_sse4_1 l2 a =
      (a.take (a.length / 4 * 4)).map sse4_1_lane ++
        volk_32f_log2_32f_generic l2 (a.drop (a.length / 4 * 4)) ∧
    (volk_32f_log2_32f_a_avx2 l2 a).length = a.length ∧
    volk_32f_log2_32f_a_avx2 l2 a =
      (a.take (a.length / 8 * 8)).map avx2_lane ++
        volk_32f_log2_32f_generic l2 (a.drop (a.length / 8 * 8)) ∧
    volk_32f_log2_32f_a_sse4_1 l2 [x0, x1, x2, x3, x4, x5, x6] =
      [sse4_1_lane x0, sse4_1_lane x1, sse4_1_lane x2, sse4_1_lane x3] ++
        volk_32f_log2_32f_generic l2 [x4, x5, x6] ∧
    (volk_32f_log2_32f_a_sse4_1 l2 [x0, x1, x2, x3, x4, x5, x6]).length = 7 := by
  have hgen : ∀ ys : List ℕ, (volk_32f_log2_32f_generic l2 ys).length = ys.length := by
    intro ys
    simp [volk_32f_log2_32f_generic]
  refine ⟨vecSweep_length 4 sse4_1_lane (volk_32f_log2_32f_generic l2) hgen a,
    kernel_shape 4 sse4_1_lane (volk_32f_log2_32f_generic l2) a,
    vecSweep_length 8 avx2_lane (volk_32f_log2_32f_generic l2) hgen a,
    kernel_shape 8 avx2_lane (volk_32f_log2_32f_generic l2) a, ?_, ?_⟩
  · unfold volk_32f_log2_32f_a_sse4_1
    rw [kernel_shape]
    norm_num
  · unfold volk_32f_log2_32f_a_sse4_1
    rw [vecSweep_length 4 sse4_1_lane (volk_32f_log2_32f_generic l2) hgen]
    simp

set_option maxRecDepth 1000000 in
/-- C4 (counterexample): `-inf` does not map to `-127.0` under either scalar
policy — `log2f` of a negative argument (including `-inf`) is NaN per C99,
the saturation branches only intercept infinite results, and NaN survives
both wrappers. -/
theorem C4_minus_inf_counterexample :
    isNaNB (log2f_non_ieee (fun p => p) 0xff800000) = true ∧
    log2f_non_ieee (fun p => p) 0xff800000 ≠ n127f ∧
    isNaNB (u_generic_elem (fun p => p) 0xff800000) = true ∧
    u_generic_elem (fun p => p) 0xff800000 ≠ n127f := by decide

/-- C4 (amended): the saturation table of the two scalar policies.  `+inf`
maps to `+127.0` under the sign-preserving policy and to `-127.0` under the
sign-collapsing policy, and `±0` (whose log2 is `-inf`) maps to `-127.0`
under both — as claimed; but `-inf` input yields NaN under both policies
(not `-127.0`), because `log2(-inf)` is NaN, not an infinity. -/
theorem C4_amended_saturation_policies (l2 : ℕ → ℕ) :
    log2f_non_ieee l2 0x7f800000 = c127f ∧
    u_generic_elem l2 0x7f800000 = n127f ∧
    log2f_non_ieee l2 0 = n127f ∧
    log2f_non_ieee l2 0x80000000 = n127f ∧
    u_generic_elem l2 0 = n127f ∧
    u_generic_elem l2 0x80000000 = n127f ∧
    isNaNB (log2f_non_ieee l2 0xff800000) = true ∧
    isNaNB (u_generic_elem l2 0xff800000) = true ∧
    valQ c127f = 127 ∧ valQ n127f = -127 := by
  refine ⟨log2f_non_ieee_pinf l2, u_generic_elem_pinf l2, log2f_non_ieee_zero l2,
    log2f_non_ieee_nzero l2, u_generic_elem_zero l2, u_generic_elem_nzero l2, ?_, ?_, ?_, ?_⟩
  · rw [log2f_non_ieee_minf l2]
    decide
  · rw [u_generic_elem_minf l2]
    decide
  · rw [valQ_eval c127f 16646144 17 (by decide) (by decide)]
    norm_num
  · rw [valQ_eval n127f (-16646144) 17 (by decide) (by decide)]
    norm_num

set_option maxRecDepth 1000000 in
/-- C10 (counterexample): the NEON path does not yield exactly `-127.0` on
input `+0.0`: its lane (whose polynomial uses different coefficients and no
`(m-1)` weighting) outputs `0xc2fe0001`, one ulp below `-127.0`, which
differs from the scalar kernels' `-127.0` (`0xc2fe0000`). -/
theorem C10_neon_zero_counterexample :
    vlog2q_neon_f32 0 = 0xc2fe0001 ∧
    (0xc2fe0001 : ℕ) ≠ n127f ∧
    volk_32f_log2_32f_neon (fun p => p) [0, 0, 0, 0] =
      [0xc2fe0001, 0xc2fe0001, 0xc2fe0001, 0xc2fe0001] ∧
    valQ 0xc2fe0001 ≠ -127 := by
  refine ⟨by decide, by decide, by decide, ?_⟩
  rw [valQ_eval 0xc2fe0001 (-16646145) 17 (by decide) (by decide)]
  norm_num

set_option maxRecDepth 1000000 in
/-- C10 (amended): on input `+0.0` every x86 vector lane and both scalar
kernels yield exactly `-127.0` (pattern `0xc2fe0000`), bit-for-bit; the NEON
lane alone yields `0xc2fe0001`, i.e. `-(127 + 2^-17)`, one ulp away. -/
theorem C10_amended_zero_input (l2 : ℕ → ℕ) :
    sse4_1_lane 0 = n127f ∧
    avx2_lane 0 = n127f ∧
    avx2_fma_lane 0 = n127f ∧
    log2f_non_ieee l2 0 = n127f ∧
    u_generic_elem l2 0 = n127f ∧
    valQ n127f = -127 ∧
    vlog2q_neon_f32 0 = 0xc2fe0001 ∧
    valQ 0xc2fe0001 = -(127 + 1 / 131072) := by
  refine ⟨by decide, by decide, by decide, log2f_non_ieee_zero l2, u_generic_elem_zero l2,
    ?_, by decide, ?_⟩
  · rw [valQ_eval n127f (-16646144) 17 (by decide) (by decide)]
    norm_num
  · rw [valQ_eval 0xc2fe0001 (-16646145) 17 (by decide) (by decide)]
    norm_num

set_option maxRecDepth 1000000 in
/-- C3 (counterexample): in the vector-processed portion `±inf` inputs are
NOT mapped to a value of magnitude `127.0`: the x86 lanes compute
`cvtepi32(255 - 127) = 128.0` (pattern `0x43000000`) for both infinities, as
the biased-exponent arithmetic treats the infinity pattern like a finite
one. -/
theorem C3_inf_saturation_counterexample :
    volk_32f_log2_32f_a_sse4_1 (fun p => p)
        [0x7f800000, 0x7f800000, 0x7f800000, 0x7f800000] =
      [0x43000000, 0x43000000, 0x43000000, 0x43000000] ∧
    valQ 0x43000000 = 128 ∧
    (0x43000000 : ℕ) ≠ c127f ∧ (0x43000000 : ℕ) ≠ n127f := by
  refine ⟨by decide, ?_, by decide, by decide⟩
  rw [valQ_eval 0x43000000 8388608 16 (by decide) (by decide)]
  norm_num

set_option maxRecDepth 1000000 in
/-- C3 (amended): infinity handling depends on the portion the index falls
in.  In the vector portion every x86 lane maps `±inf` to `128.0`
(`0x43000000`), not `±127.0`; in the scalar tail `+inf` maps to `±127.0`
per the tree's policy, while `-inf` becomes NaN.  The NEON lane also does
not produce `±127.0` on infinities. -/
theorem C3_amended_inf_behavior (l2 : ℕ → ℕ) (a : List ℕ) (i : ℕ)
    (hi : i < a.length / 4 * 4) (hv : a[i]? = some 0x7f800000) :
    (volk_32f_log2_32f_a_sse4_1 l2 a)[i]? = some 0x43000000 ∧
    sse4_1_lane 0x7f800000 = 0x43000000 ∧
    sse4_1_lane 0xff800000 = 0x43000000 ∧
    avx2_lane 0x7f800000 = 0x43000000 ∧
    avx2_lane 0xff800000 = 0x43000000 ∧
    avx2_fma_lane 0x7f800000 = 0x43000000 ∧
    avx2_fma_lane 0xff800000 = 0x43000000 ∧
    vlog2q_neon_f32 0x7f800000 ≠ c127f ∧
    vlog2q_neon_f32 0x7f800000 ≠ n127f ∧
    log2f_non_ieee l2 0x7f800000 = c127f ∧
    u_generic_elem l2 0x7f800000 = n127f ∧
    isNaNB (log2f_non_ieee l2 0xff800000) = true ∧
    isNaNB (u_generic_elem l2 0xff800000) = true ∧
    valQ 0x43000000 = 128 := by
  refine ⟨?_, by decide, by decide, by decide, by decide, by decide, by decide, by decide,
    by decide, log2f_non_ieee_pinf l2, u_generic_elem_pinf l2, ?_, ?_, ?_⟩
  · unfold volk_32f_log2_32f_a_sse4_1
    rw [vecSweep_getElem_lane 4 sse4_1_lane (volk_32f_log2_32f_generic l2) a i hi, hv]
    decide
  · rw [log2f_non_ieee_minf l2]
    decide
  · rw [u_generic_elem_minf l2]
    decide
  · rw [valQ_eval 0x43000000 8388608 16 (by decide) (by decide)]
    norm_num

set_option maxRecDepth 1000000 in
theorem C3_amended_inf_behavior_witness :
    (volk_32f_log2_32f_a_sse4_1 (fun p => p) [0x7f800000, 0, 0, 0])[0]? =
        some 0x43000000 ∧
      valQ 0x43000000 = 128 := by
  obtain ⟨h1, -, -, -, -, -, -, -, -, -, -, -, -, h14⟩ :=
    C3_amended_inf_behavior (fun p => p) [0x7f800000, 0, 0, 0] 0 (by decide) (by decide)
  exact ⟨h1, h14⟩

/-- C6: on inputs that are all finite and non-negative the aligned and
unaligned kernels of each (width, fusion) pairing produce bit-identical
output, provided the platform `log2f` returns a 32-bit pattern other than
`+inf` on them (true of positive finite arguments, whose log2 is finite):
the vector portions are literally the same code, and on such elements the
two scalar tail kernels agree because the saturation branches either both
fire on a `-inf` result (both giving `-127.0`) or both lie dormant. -/
theorem C6_aligned_unaligned_bit_identical (l2 : ℕ → ℕ) (a : List ℕ)
    (hfin : ∀ x ∈ a, isFiniteB x = true)
    (hnn : ∀ x ∈ a, sgnB x = 0 ∨ isZeroB x = true)
    (hl2 : ∀ x ∈ a, l2 x < 2 ^ 32 ∧ l2 x ≠ 0x7f800000) :
    volk_32f_log2_32f_a_sse4_1 l2 a = volk_32f_log2_32f_u_sse4_1 l2 a ∧
    volk_32f_log2_32f_a_avx2 l2 a = volk_32f_log2_32f_u_avx2 l2 a ∧
    volk_32f_log2_32f_a_avx2_fma l2 a = volk_32f_log2_32f_u_avx2_fma l2 a := by
  have htail : ∀ n : ℕ, volk_32f_log2_32f_generic l2 (a.drop n) =
      volk_32f_log2_32f_u_generic l2 (a.drop n) := by
    intro n
    unfold volk_32f_log2_32f_generic volk_32f_log2_32f_u_generic
    refine List.map_congr_left ?_
    intro x hx
    have hxa : x ∈ a := List.drop_subset n a hx
    exact generic_elem_agree l2 x (hfin x hxa) (hnn x hxa) (hl2 x hxa).1 (hl2 x hxa).2
  refine ⟨?_, ?_, ?_⟩
  · unfold volk_32f_log2_32f_a_sse4_1 volk_32f_log2_32f_u_sse4_1
    rw [kernel_shape, kernel_shape, htail]
  · unfold volk_32f_log2_32f_a_avx2 volk_32f_log2_32f_u_avx2
    rw [kernel_shape, kernel_shape, htail]
  · unfold volk_32f_log2_32f_a_avx2_fma volk_32f_log2_32f_u_avx2_fma
    rw [kernel_shape, kernel_shape, htail]

set_option maxRecDepth 1000000 in
theorem C6_aligned_unaligned_bit_identical_witness :
    volk_32f_log2_32f_a_sse4_1 l2x [0x3f800000, 0x40000000, 0, 0x40800000, 0x3f000000] =
      volk_32f_log2_32f_u_sse4_1 l2x [0x3f800000, 0x40000000, 0, 0x40800000, 0x3f000000] :=
  (C6_aligned_unaligned_bit_identical l2x
    [0x3f800000, 0x40000000, 0, 0x40800000, 0x3f000000]
    (by decide) (by decide) (by decide)).1

set_option maxRecDepth 1000000 in
/-- C1 (counterexample): the error bound does not extend to subnormal
inputs.  On the smallest positive subnormal `2^-149` (pattern `1`) the
SSE4.1 kernel outputs `-127.0` in every lane, while the exact log2 is
`-149`: the error is 22, far above both a `1e-3` relative bound
(`0.001 · 149`) and a `1e-3` absolute bound. -/
theorem C1_error_bound_counterexample :
    volk_32f_log2_32f_a_sse4_1 (fun p => p) [1, 1, 1, 1] =
      [0xc2fe0000, 0xc2fe0000, 0xc2fe0000, 0xc2fe0000] ∧
    isFiniteB 1 = true ∧
    0 < valQ 1 ∧
    valQ 1 = ((2 : ℚ) ^ (149 : ℕ))⁻¹ ∧
    |((valQ 0xc2fe0000 : ℚ) : ℝ) - Real.logb 2 ((valQ 1 : ℚ) : ℝ)| = 22 ∧
    (1 / 1000 : ℝ) * |Real.logb 2 ((valQ 1 : ℚ) : ℝ)| < 22 ∧
    (1 / 1000 : ℝ) < 22 := by
  have hv1 : valQ 1 = ((2 : ℚ) ^ (149 : ℕ))⁻¹ := by
    rw [valQ_eval 1 1 149 (by decide) (by decide)]
    norm_num
  have hvout : valQ 0xc2fe0000 = -127 := by
    rw [valQ_eval 0xc2fe0000 (-16646144) 17 (by decide) (by decide)]
    norm_num
  have hcast : ((valQ 1 : ℚ) : ℝ) = (2 : ℝ) ^ (-149 : ℤ) := by
    rw [hv1, zpow_neg]
    push_cast
    norm_num
  have hlogb : Real.logb 2 ((valQ 1 : ℚ) : ℝ) = -149 := by
    rw [hcast, Real.logb, Real.log_zpow, mul_div_assoc,
      div_self (Real.log_pos (by norm_num)).ne']
    norm_num
  refine ⟨by decide, by decide, ?_, hv1, ?_, ?_, by norm_num⟩
  · rw [hv1]
    positivity
  · rw [hlogb, hvout]
    push_cast
    rw [show ((-127 : ℝ)) - (-149) = 22 from by norm_num]
    exact abs_of_pos (by norm_num)
  · rw [hlogb]
    rw [show |(-149 : ℝ)| = 149 from by rw [abs_of_neg (by norm_num : (-149 : ℝ) < 0)]; norm_num]
    norm_num

/-- C1 (amended): the blanket relative error bound fails on subnormal inputs
(see the counterexample); the exactness that does hold — and that the spec's
sampling scheme probes at `i = 0` — is at powers of two: for every normal
`2^k` the three x86 lanes and both scalar kernels output the float
conversion of `k`, whose value is exactly `k`. -/
theorem C1_amended_pow2_exact (l2 : ℕ → ℕ) (k : ℤ) (h1 : -126 ≤ k) (h2 : k ≤ 127)
    (hl2 : l2 (pow2pat k) = cvtepi32 k) :
    valQ (pow2pat k) = (2 : ℚ) ^ k ∧
    sse4_1_lane (pow2pat k) = cvtepi32 k ∧
    avx2_lane (pow2pat k) = cvtepi32 k ∧
    avx2_fma_lane (pow2pat k) = cvtepi32 k ∧
    log2f_non_ieee l2 (pow2pat k) = cvtepi32 k ∧
    u_generic_elem l2 (pow2pat k) = cvtepi32 k ∧
    valQ (cvtepi32 k) = (k : ℚ) := by
  have he := expB_pow2 k h1 h2
  have hs := sigB_pow2 k
  have hsg : sgnB (pow2pat k) = 0 := by
    unfold sgnB pow2pat
    have hle : (k + 127).toNat ≤ 254 := by omega
    omega
  have hm : mantZ (pow2pat k) = 2 ^ 23 := by
    unfold mantZ
    rw [hsg, he, hs]
    rw [if_neg (by norm_num : ¬(0 : ℕ) = 1), if_neg (by omega : ¬(k + 127).toNat = 0)]
    norm_num
  have hez : expZ (pow2pat k) = k - 23 := by
    unfold expZ
    rw [he]
    rw [if_neg (by omega : ¬(k + 127).toNat = 0)]
    omega
  have hval : valQ (pow2pat k) = (2 : ℚ) ^ k := by
    unfold valQ
    rw [hm, hez]
    have h2ne : (2 : ℚ) ≠ 0 := by norm_num
    rw [zpow_sub₀ h2ne]
    push_cast
    rw [show (2 : ℚ) ^ (23 : ℤ) = 2 ^ (23 : ℕ) from by norm_num]
    field_simp
    rw [show ((2 : ℚ) ^ (23 : ℕ)) = 8388608 from by norm_num]
    ring
  obtain ⟨hsc1, hsc2⟩ := scalar_pow2 l2 k h1 h2 hl2
  exact ⟨hval, sse4_1_lane_pow2 k h1 h2, avx2_lane_pow2 k h1 h2,
    avx2_fma_lane_pow2 k h1 h2, hsc1, hsc2, valQ_cvtepi32 k (by omega)⟩

set_option maxRecDepth 1000000 in
theorem C1_amended_pow2_exact_witness :
    valQ (pow2pat 10) = (2 : ℚ) ^ (10 : ℤ) ∧
      sse4_1_lane (pow2pat 10) = cvtepi32 10 ∧
      valQ (cvtepi32 10) = ((10 : ℤ) : ℚ) := by
  obtain ⟨w1, w2, -, -, -, -, w7⟩ :=
    C1_amended_pow2_exact l2x 10 (by norm_num) (by norm_num) (by decide)
  exact ⟨w1, w2, w7⟩

set_option maxRecDepth 1000000 in
set_option maxHeartbeats 2000000 in
/-- One block of the exhaustive NEON power-of-two check, kept small so that
each block's kernel evaluation stays cheap: biased exponents `s+1 .. s+c`
(pattern `(s+j+1) * 2^23`, exponent `s+j+1-127`). -/
def neonChunk (s c : ℕ) : Bool :=
  (List.range c).all
    (fun j => nearB (vlog2q_neon_f32 ((s + j + 1) * 2 ^ 23)) (((s + j : ℕ) : ℤ) + 1 - 127) 1 10000)

set_option maxRecDepth 1000000 in
theorem neonChunkA : neonChunk 0 16 = true := by decide

set_option maxRecDepth 1000000 in
theorem neonChunkB : neonChunk 16 16 = true := by decide

set_option maxRecDepth 1000000 in
theorem neonChunkC : neonChunk 32 16 = true := by decide

set_option maxRecDepth 1000000 in
theorem neonChunkD : neonChunk 48 16 = true := by decide

set_option maxRecDepth 1000000 in
theorem neonChunkE : neonChunk 64 16 = true := by decide

set_option maxRecDepth 1000000 in
theorem neonChunkF : neonChunk 80 16 = true := by decide

set_option maxRecDepth 1000000 in
theorem neonChunkG : neonChunk 96 16 = true := by decide

set_option maxRecDepth 1000000 in
theorem neonChunkH : neonChunk 112 16 = true := by decide

set_option maxRecDepth 1000000 in
theorem neonChunkI : neonChunk 128 16 = true := by decide

set_option maxRecDepth 1000000 in
theorem neonChunkJ : neonChunk 144 16 = true := by decide

set_option maxRecDepth 1000000 in
theorem neonChunkK : neonChunk 160 16 = true := by decide

set_option maxRecDepth 1000000 in
theorem neonChunkL : neonChunk 176 16 = true := by decide

set_option maxRecDepth 1000000 in
theorem neonChunkM : neonChunk 192 16 = true := by decide

set_option maxRecDepth 1000000 in
theorem neonChunkN : neonChunk 208 16 = true := by decide

set_option maxRecDepth 1000000 in
theorem neonChunkO : neonChunk 224 16 = true := by decide

set_option maxRecDepth 1000000 in
theorem neonChunkP : neonChunk 240 14 = true := by decide

theorem neonChunk_spec (s c : ℕ) (h : neonChunk s c = true) (j : ℕ) (hj : j < c) :
    nearB (vlog2q_neon_f32 ((s + j + 1) * 2 ^ 23)) (((s + j : ℕ) : ℤ) + 1 - 127) 1 10000 =
      true := by
  unfold neonChunk at h
  rw [List.all_eq_true] at h
  exact h j (List.mem_range.mpr hj)

/-- Exhaustive check (assembled from the sixteen blocks): the NEON lane is
within `1/10000` of `k` on every normal power of two, `n` running over the
biased exponents minus one (pattern `(n+1) * 2^23`, exponent `k = n+1-127`). -/
theorem neon_pow2_near (n : ℕ) (hn : n < 254) :
    nearB (vlog2q_neon_f32 ((n + 1) * 2 ^ 23)) ((n : ℤ) + 1 - 127) 1 10000 = true := by
  have hs : ∀ s c : ℕ, neonChunk s c = true → s ≤ n → n < s + c →
      nearB (vlog2q_neon_f32 ((n + 1) * 2 ^ 23)) ((n : ℤ) + 1 - 127) 1 10000 = true := by
    intro s c hc hs1 hs2
    have h := neonChunk_spec s c hc (n - s) (by omega)
    rw [show s + (n - s) = n from by omega] at h
    exact h
  rcases Nat.lt_or_ge n 16 with h | h
  · exact hs 0 16 neonChunkA (by omega) (by omega)
  rcases Nat.lt_or_ge n 32 with h2 | h2
  · exact hs 16 16 neonChunkB (by omega) (by omega)
  rcases Nat.lt_or_ge n 48 with h3 | h3
  · exact hs 32 16 neonChunkC (by omega) (by omega)
  rcases Nat.lt_or_ge n 64 with h4 | h4
  · exact hs 48 16 neonChunkD (by omega) (by omega)
  rcases Nat.lt_or_ge n 80 with h5 | h5
  · exact hs 64 16 neonChunkE (by omega) (by omega)
  rcases Nat.lt_or_ge n 96 with h6 | h6
  · exact hs 80 16 neonChunkF (by omega) (by omega)
  rcases Nat.lt_or_ge n 112 with h7 | h7
  · exact hs 96 16 neonChunkG (by omega) (by omega)
  rcases Nat.lt_or_ge n 128 with h8 | h8
  · exact hs 112 16 neonChunkH (by omega) (by omega)
  rcases Nat.lt_or_ge n 144 with h9 | h9
  · exact hs 128 16 neonChunkI (by omega) (by omega)
  rcases Nat.lt_or_ge n 160 with h10 | h10
  · exact hs 144 16 neonChunkJ (by omega) (by omega)
  rcases Nat.lt_or_ge n 176 with h11 | h11
  · exact hs 160 16 neonChunkK (by omega) (by omega)
  rcases Nat.lt_or_ge n 192 with h12 | h12
  · exact hs 176 16 neonChunkL (by omega) (by omega)
  rcases Nat.lt_or_ge n 208 with h13 | h13
  · exact hs 192 16 neonChunkM (by omega) (by omega)
  rcases Nat.lt_or_ge n 224 with h14 | h14
  · exact hs 208 16 neonChunkN (by omega) (by omega)
  rcases Nat.lt_or_ge n 240 with h15 | h15
  · exact hs 224 16 neonChunkO (by omega) (by omega)
  exact hs 240 14 neonChunkP (by omega) (by omega)

theorem neon_pow2_bound (k : ℤ) (h1 : -126 ≤ k) (h2 : k ≤ 127) :
    |valQ (vlog2q_neon_f32 (pow2pat k)) - (k : ℚ)| ≤ 1 / 10000 := by
  have h := neon_pow2_near (k + 126).toNat (by omega)
  have e1 : ((k + 126).toNat + 1) * 2 ^ 23 = pow2pat k := by
    unfold pow2pat
    omega
  have e2 : (((k + 126).toNat : ℤ)) + 1 - 127 = k := by omega
  rw [e1, e2] at h
  have hb := nearB_le (by norm_num : 0 < 10000) h
  simpa using hb

set_option maxRecDepth 1000000 in
/-- C8: for every integer `k` with `2^k` a normal binary32 value, each
variant applied to `2^k` produces (approximately) `k`: the three x86 lanes
and both scalar kernels output the float conversion of `k` exactly (value
exactly `k`), and the NEON lane is within `1/10000` of `k`.  On the concrete
scenario `[1.0, 2.0, 4.0, 1024.0, 0.5]` the SSE4.1 kernels and the AVX2
kernel output exactly `[0.0, 1.0, 2.0, 10.0, -1.0]`. -/
theorem C8_pow2_inputs_and_scenario (l2 : ℕ → ℕ)
    (hl2 : ∀ k : ℤ, -126 ≤ k → k ≤ 127 → l2 (pow2pat k) = cvtepi32 k) :
    (∀ k : ℤ, -126 ≤ k → k ≤ 127 →
      sse4_1_lane (pow2pat k) = cvtepi32 k ∧
      avx2_lane (pow2pat k) = cvtepi32 k ∧
      avx2_fma_lane (pow2pat k) = cvtepi32 k ∧
      log2f_non_ieee l2 (pow2pat k) = cvtepi32 k ∧
      u_generic_elem l2 (pow2pat k) = cvtepi32 k ∧
      valQ (cvtepi32 k) = (k : ℚ) ∧
      |valQ (vlog2q_neon_f32 (pow2pat k)) - (k : ℚ)| ≤ 1 / 10000) ∧
    volk_32f_log2_32f_a_sse4_1 l2
        [0x3f800000, 0x40000000, 0x40800000, 0x44800000, 0x3f000000] =
      [0x00000000, 0x3f800000, 0x40000000, 0x41200000, 0xbf800000] ∧
    volk_32f_log2_32f_u_sse4_1 l2
        [0x3f800000, 0x40000000, 0x40800000, 0x44800000, 0x3f000000] =
      [0x00000000, 0x3f800000, 0x40000000, 0x41200000, 0xbf800000] ∧
    volk_32f_log2_32f_a_avx2 l2
        [0x3f800000, 0x40000000, 0x40800000, 0x44800000, 0x3f000000] =
      [0x00000000, 0x3f800000, 0x40000000, 0x41200000, 0xbf800000] ∧
    (valQ 0x3f800000 = 1 ∧ valQ 0x40000000 = 2 ∧ valQ 0x40800000 = 4 ∧
      valQ 0x44800000 = 1024 ∧ valQ 0x3f000000 = 1 / 2) ∧
    (valQ 0x00000000 = 0 ∧ valQ 0x41200000 = 10 ∧ valQ 0xbf800000 = -1) := by
  have hsc : ∀ k : ℤ, -126 ≤ k → k ≤ 127 →
      log2f_non_ieee l2 (pow2pat k) = cvtepi32 k ∧
        u_generic_elem l2 (pow2pat k) = cvtepi32 k :=
    fun k h1 h2 => scalar_pow2 l2 k h1 h2 (hl2 k h1 h2)
  have t1 : log2f_non_ieee l2 0x3f800000 = 0x00000000 := by
    have h := (hsc 0 (by norm_num) (by norm_num)).1
    rw [show pow2pat 0 = 0x3f800000 from by decide] at h
    rw [h]
    decide
  have t2 : log2f_non_ieee l2 0x40000000 = 0x3f800000 := by
    have h := (hsc 1 (by norm_num) (by norm_num)).1
    rw [show pow2pat 1 = 0x40000000 from by decide] at h
    rw [h]
    decide
  have t3 : log2f_non_ieee l2 0x40800000 = 0x40000000 := by
    have h := (hsc 2 (by norm_num) (by norm_num)).1
    rw [show pow2pat 2 = 0x40800000 from by decide] at h
    rw [h]
    decide
  have t4 : log2f_non_ieee l2 0x44800000 = 0x41200000 := by
    have h := (hsc 10 (by norm_num) (by norm_num)).1
    rw [show pow2pat 10 = 0x44800000 from by decide] at h
    rw [h]
    decide
  have t5 : log2f_non_ieee l2 0x3f000000 = 0xbf800000 := by
    have h := (hsc (-1) (by norm_num) (by norm_num)).1
    rw [show pow2pat (-1) = 0x3f000000 from by decide] at h
    rw [h]
    decide
  have t6 : u_generic_elem l2 0x3f000000 = 0xbf800000 := by
    have h := (hsc (-1) (by norm_num) (by norm_num)).2
    rw [show pow2pat (-1) = 0x3f000000 from by decide] at h
    rw [h]
    decide
  have e1 : sse4_1_lane 0x3f800000 = 0x00000000 := by decide
  have e2 : sse4_1_lane 0x40000000 = 0x3f800000 := by decide
  have e3 : sse4_1_lane 0x40800000 = 0x40000000 := by decide
  have e4 : sse4_1_lane 0x44800000 = 0x41200000 := by decide
  refine ⟨?_, ?_, ?_, ?_, ⟨?_, ?_, ?_, ?_, ?_⟩, ⟨?_, ?_, ?_⟩⟩
  · intro k h1 h2
    obtain ⟨hs1, hs2⟩ := hsc k h1 h2
    exact ⟨sse4_1_lane_pow2 k h1 h2, avx2_lane_pow2 k h1 h2, avx2_fma_lane_pow2 k h1 h2,
      hs1, hs2, valQ_cvtepi32 k (by omega), neon_pow2_bound k h1 h2⟩
  · show [sse4_1_lane 0x3f800000, sse4_1_lane 0x40000000, sse4_1_lane 0x40800000,
        sse4_1_lane 0x44800000] ++ [log2f_non_ieee l2 0x3f000000] =
      [0x00000000, 0x3f800000, 0x40000000, 0x41200000, 0xbf800000]
    rw [e1, e2, e3, e4, t5]
    rfl
  · show [sse4_1_lane 0x3f800000, sse4_1_lane 0x40000000, sse4_1_lane 0x40800000,
        sse4_1_lane 0x44800000] ++ [u_generic_elem l2 0x3f000000] =
      [0x00000000, 0x3f800000, 0x40000000, 0x41200000, 0xbf800000]
    rw [e1, e2, e3, e4, t6]
    rfl
  · show [log2f_non_ieee l2 0x3f800000, log2f_non_ieee l2 0x40000000,
        log2f_non_ieee l2 0x40800000, log2f_non_ieee l2 0x44800000,
        log2f_non_ieee l2 0x3f000000] =
      [0x00000000, 0x3f800000, 0x40000000, 0x41200000, 0xbf800000]
    rw [t1, t2, t3, t4, t5]
  · rw [valQ_eval 0x3f800000 8388608 23 (by decide) (by decide)]
    norm_num
  · rw [valQ_eval 0x40000000 8388608 22 (by decide) (by decide)]
    norm_num
  · rw [valQ_eval 0x40800000 8388608 21 (by decide) (by decide)]
    norm_num
  · rw [valQ_eval 0x44800000 8388608 13 (by decide) (by decide)]
    norm_num
  · rw [valQ_eval 0x3f000000 8388608 24 (by decide) (by decide)]
    norm_num
  · rw [valQ_eval 0x00000000 0 149 (by decide) (by decide)]
    norm_num
  · rw [valQ_eval 0x41200000 10485760 20 (by decide) (by decide)]
    norm_num
  · rw [valQ_eval 0xbf800000 (-8388608) 23 (by decide) (by decide)]
    norm_num

set_option maxRecDepth 1000000 in
theorem C8_pow2_inputs_and_scenario_witness :
    sse4_1_lane (pow2pat 10) = cvtepi32 10 ∧
      valQ (cvtepi32 10) = ((10 : ℤ) : ℚ) ∧
      |valQ (vlog2q_neon_f32 (pow2pat 10)) - ((10 : ℤ) : ℚ)| ≤ 1 / 10000 ∧
      volk_32f_log2_32f_a_sse4_1 l2x
          [0x3f800000, 0x40000000, 0x40800000, 0x44800000, 0x3f000000] =
        [0x00000000, 0x3f800000, 0x40000000, 0x41200000, 0xbf800000] := by
  obtain ⟨hall, hs1, -, -, -, -⟩ :=
    C8_pow2_inputs_and_scenario l2x (fun k h1 h2 => l2x_pow2 k h1 h2)
  obtain ⟨w1, -, -, -, -, w6, w7⟩ := hall 10 (by norm_num) (by norm_num)
  exact ⟨w1, w6, w7, hs1⟩

end Volk
